import Mathlib

/-! Task tree (`task.c`): a shallow embedding.

`task.c` keeps `Task` records in an unbalanced binary search tree keyed on the
task id and offers two reports: completed tasks (in-order walk) and active
tasks (collected into a temporary linked list, sorted by `timeLimit`).

Embedding conventions.

* A `Task *` is a value of the inductive type `Task`: `Task.null` is `NULL`,
  `Task.node p l r` is a pointer to a record with payload `p` and children
  `l`, `r`.  The tree is singly owned and acyclic, so the in-place updates
  `root->left = f(root->left, ..)` followed by `return root` are the
  functional updates written below.
* The payload (`id`, `description`, `timeLimit`, `status`) is the structure
  `Payload`.  The C `int`s are only compared and copied, never computed with,
  so they are `Int`.
* The record handed to `addTaskToTree` is a freshly created one (both child
  pointers `NULL`): it is given by its payload.
* An `ActiveTaskList *` is the list of the payloads its elements point to.
* `printf` is modelled by the list of rows written.
* `free` is modelled by the list of objects released (`Freed`), in the order
  of the calls; reading a released record is undefined, which the checked
  lookup `findNodeInTreeIn` reports as `none`.
-/

namespace TaskList

/-- The data fields of `struct tTask` (task.h, lines 5 to 8). -/
structure Payload where
  id : Int
  description : String
  timeLimit : Int
  status : Int
  deriving DecidableEq, Repr

/-- A `Task *`: `NULL` or a pointer to a record and its two children. -/
inductive Task where
  | null : Task
  | node (data : Payload) (left right : Task) : Task
  deriving DecidableEq, Repr

/-- An `ActiveTaskList *`, as the sequence of tasks its elements refer to. -/
abbrev ActiveTaskList := List Payload

/-- One line written by `printf("| %-5d | %-20s | %-16d | %-9s|\n", ...)`:
the four arguments of the format. -/
structure Row where
  id : Int
  description : String
  timeLimit : Int
  label : String
  deriving DecidableEq, Repr

/-- `findNodeInTree` (task.c, lines 14 to 22). -/
def findNodeInTree : Task → Int → Task
  | .null, _ => .null
  | .node d l r, taskId =>
    if d.id = taskId then .node d l r
    else if taskId > d.id then findNodeInTree r taskId
    else findNodeInTree l taskId

/-- `findMinimumIdTask` (task.c, lines 31 to 37): the loop follows `left`
while the current record and its left child are both present. -/
def findMinimumIdTask : Task → Task
  | .null => .null
  | .node d .null r => .node d .null r
  | .node _ (.node d1 l1 r1) _ => findMinimumIdTask (.node d1 l1 r1)

/-- `addTaskToTree` (task.c, lines 48 to 59); `task` is a fresh record. -/
def addTaskToTree : Task → Payload → Task
  | .null, task => .node task .null .null
  | .node d l r, task =>
    if task.id < d.id then .node d (addTaskToTree l task) r
    else .node d l (addTaskToTree r task)

/-- `removeTaskFromTree` (task.c, lines 71 to 99).  In the two-children case
`temp = findMinimumIdTask(root->right)` is never `NULL` (see
`findMinimumIdTask_node`); the branch for `NULL`, where the C code would
dereference a null pointer, leaves the tree as it is. -/
def removeTaskFromTree : Task → Int → Task
  | .null, _ => .null
  | .node d l r, taskId =>
    if taskId < d.id then .node d (removeTaskFromTree l taskId) r
    else if taskId > d.id then .node d l (removeTaskFromTree r taskId)
    else
      match l with
      | .null => r
      | .node _ _ _ =>
        match r with
        | .null => l
        | .node _ _ _ =>
          match findMinimumIdTask r with
          | .null => .node d l r
          | .node temp _ _ =>
            .node
              { id := temp.id, description := temp.description,
                timeLimit := temp.timeLimit, status := temp.status }
              l (removeTaskFromTree r temp.id)

/-- The row written for a task, with the given status label. -/
def formatRow (label : String) (t : Payload) : Row :=
  { id := t.id, description := t.description, timeLimit := t.timeLimit, label := label }

/-- `printFinishedTasks` (task.c, lines 120 to 129): the rows written. -/
def printFinishedTasks : Task → List Row
  | .null => []
  | .node d l r =>
    printFinishedTasks l
      ++ (if d.status = 0 then [formatRow "Concluida" d] else [])
      ++ printFinishedTasks r

/-- `appendTaskToActiveTaskList` (task.c, lines 137 to 150): the new element
is linked after the last one. -/
def appendTaskToActiveTaskList : ActiveTaskList → Payload → ActiveTaskList
  | [], task => [task]
  | x :: rest, task => x :: appendTaskToActiveTaskList rest task

/-- `createActiveTaskList` (task.c, lines 158 to 168). -/
def createActiveTaskList : ActiveTaskList → Task → ActiveTaskList
  | activeTaskList, .null => activeTaskList
  | activeTaskList, .node d l r =>
    let a1 := if d.status = 1 then appendTaskToActiveTaskList activeTaskList d
              else activeTaskList
    let a2 := createActiveTaskList a1 l
    createActiveTaskList a2 r

/-- The inner loop of `sortActiveTaskList` (task.c, lines 186 to 199) for a
fixed `currentNode`: `cur` is `currentNode->task`, the list holds the tasks of
the elements from `nextNode` on.  Returns the final `currentNode->task` and
the tasks of the elements after it. -/
def sortInner : Payload → ActiveTaskList → Payload × ActiveTaskList
  | cur, [] => (cur, [])
  | cur, nxt :: rest =>
    if cur.timeLimit > nxt.timeLimit then
      let res := sortInner nxt rest
      (res.1, cur :: res.2)
    else
      let res := sortInner cur rest
      (res.1, nxt :: res.2)

/-- `sortActiveTaskList` (task.c, lines 178 to 204): the outer loop runs the
inner loop for the first element, then moves on to the next element. -/
def sortActiveTaskList : ActiveTaskList → ActiveTaskList
  | [] => []
  | cur :: rest =>
    (sortInner cur rest).1 :: sortActiveTaskList (sortInner cur rest).2
termination_by l => l.length
decreasing_by
  have keep : ∀ (l : ActiveTaskList) (c : Payload), (sortInner c l).2.length = l.length := by
    intro l
    induction l with
    | nil => intro c; rfl
    | cons x xs ih =>
      intro c
      unfold sortInner
      split <;> simp [ih]
  simp [keep]

/-- The printing loop of `printActiveTasks` (task.c, lines 231 to 235). -/
def printActiveRows : ActiveTaskList → List Row
  | [] => []
  | task :: rest => formatRow "Ativa" task :: printActiveRows rest

/-- `printActiveTasks` (task.c, lines 227 to 238): the rows written. -/
def printActiveTasks (root : Task) : List Row :=
  printActiveRows (sortActiveTaskList (createActiveTaskList [] root))

/-! ## Specification vocabulary -/

/-- In-order (left, self, right) traversal. -/
def inorder : Task → List Payload
  | .null => []
  | .node d l r => inorder l ++ d :: inorder r

/-- Pre-order (self, left, right) traversal. -/
def preorder : Task → List Payload
  | .null => []
  | .node d l r => d :: (preorder l ++ preorder r)

/-- The ids met by the in-order traversal. -/
def inorderIds (t : Task) : List Int :=
  (inorder t).map (fun x => x.id)

/-- The ids of the rows written by `printFinishedTasks`, in the order written. -/
def finishedIds (root : Task) : List Int :=
  (printFinishedTasks root).map (fun row => row.id)

/-- The node invariant of the data model: ids on the left are smaller, ids on
the right are greater or equal, at every node. -/
def BST : Task → Prop
  | .null => True
  | .node d l r =>
    (∀ x ∈ inorder l, x.id < d.id) ∧ (∀ x ∈ inorder r, d.id ≤ x.id) ∧ BST l ∧ BST r

/-- The invariant can be checked by evaluation. -/
instance instDecidableBST : (t : Task) → Decidable (BST t)
  | .null => isTrue trivial
  | .node d l r =>
    have := instDecidableBST l
    have := instDecidableBST r
    by unfold BST; exact inferInstance

/-- The number of records in the tree. -/
def nodeCount : Task → Nat
  | .null => 0
  | .node _ l r => nodeCount l + 1 + nodeCount r

/-- The tree obtained by inserting the tasks one by one into the empty tree. -/
def buildTree (tasks : List Payload) : Task :=
  tasks.foldl addTaskToTree .null

/-- A tree operation of the public interface. -/
inductive Op where
  | add (task : Payload) : Op
  | remove (taskId : Int) : Op
  deriving DecidableEq, Repr

/-- Apply one operation. -/
def applyOp (root : Task) : Op → Task
  | .add task => addTaskToTree root task
  | .remove taskId => removeTaskFromTree root taskId

/-- Run a sequence of operations from the empty tree. -/
def runOps (ops : List Op) : Task :=
  ops.foldl applyOp .null

/-! ## Released memory -/

/-- An object passed to `free`: an element of the temporary list (given by the
task it refers to) or a task record of the tree. -/
inductive Freed where
  | element (task : Payload) : Freed
  | record (task : Payload) : Freed
  deriving DecidableEq, Repr

/-- `removeAllTasksFromTree` (task.c, lines 106 to 113): the records passed to
`free`, in the order of the calls. -/
def removeAllTasksFromTree : Task → List Freed
  | .null => []
  | .node d l r => removeAllTasksFromTree l ++ removeAllTasksFromTree r ++ [.record d]

/-- `deleteActiveTaskList` (task.c, lines 211 to 218): the list elements
passed to `free`, in the order of the calls. -/
def deleteActiveTaskList : ActiveTaskList → List Freed
  | [] => []
  | task :: rest => .element task :: deleteActiveTaskList rest

/-- The value of the variable `taskList` when the printing loop of
`printActiveTasks` (task.c, lines 231 to 235) ends: the loop advances
`taskList` itself, `taskList = taskList->next`, until it is `NULL`. -/
def printActiveLoopEnd : ActiveTaskList → ActiveTaskList
  | [] => []
  | _ :: rest => printActiveLoopEnd rest

/-- `printActiveTasks` (task.c, lines 227 to 238), the memory side: what the
call `deleteActiveTaskList(taskList)` of line 236 releases. -/
def printActiveTasksFreed (root : Task) : List Freed :=
  deleteActiveTaskList
    (printActiveLoopEnd (sortActiveTaskList (createActiveTaskList [] root)))

/-- `findNodeInTree` (task.c, lines 14 to 22) run after the records in `freed`
have been released: the test `root == NULL` reads no record, the test
`root->id == taskId` reads the record `root` points to, and reading a released
record is undefined (`none`).  A record is identified by its task; the list
`freed` is the one released from the tree that is searched. -/
def findNodeInTreeIn (freed : List Freed) : Task → Int → Option Task
  | .null, _ => some .null
  | .node d l r, taskId =>
    if Freed.record d ∈ freed then none
    else if d.id = taskId then some (.node d l r)
    else if taskId > d.id then findNodeInTreeIn freed r taskId
    else findNodeInTreeIn freed l taskId

/-- The lookup `findNodeInTree(root, taskId)` made right after
`removeAllTasksFromTree(root)`: the function returns `void` and receives the
pointer by value (task.h, line 25), so the caller still holds `root`. -/
def findNodeInTreeAfterRemoveAll (root : Task) (taskId : Int) : Option Task :=
  findNodeInTreeIn (removeAllTasksFromTree root) root taskId

/-! ## More specification vocabulary -/

/-- Post-order (left, right, self) traversal. -/
def postorder : Task → List Payload
  | .null => []
  | .node d l r => postorder l ++ postorder r ++ [d]

/-- The task a `Task *` points to, if it is not `NULL`. -/
def payloadOf : Task → Option Payload
  | .null => none
  | .node d _ _ => some d

/-- The left child of a record (`NULL` for `NULL`). -/
def leftOf : Task → Task
  | .null => .null
  | .node _ l _ => l

/-- The record reached from `t` by following `left` pointers `n` times. -/
def leftDescend : Nat → Task → Task
  | 0, t => t
  | n + 1, t => leftDescend n (leftOf t)

/-- The stable sort of a sequence of tasks by id: tasks come in
non-decreasing id order and tasks with equal ids keep their order. -/
def stableSortById (tasks : List Payload) : List Payload :=
  tasks.insertionSort (fun a b => a.id ≤ b.id)

end TaskList

namespace TaskList

/-! ## Insertion -/

theorem inorder_null : inorder .null = [] := rfl

theorem inorder_node (d : Payload) (l r : Task) :
    inorder (.node d l r) = inorder l ++ d :: inorder r := rfl

/-- Insertion puts the new task somewhere into the in-order sequence and
leaves the rest as it was; under the node invariant the tasks before it have
ids `≤` and the tasks after it have ids `>` the new id. -/
theorem inorder_addTaskToTree (t : Task) (task : Payload) :
    ∃ before after, inorder t = before ++ after ∧
      inorder (addTaskToTree t task) = before ++ task :: after ∧
      (BST t → (∀ x ∈ before, x.id ≤ task.id) ∧ (∀ x ∈ after, task.id < x.id)) := by
  induction t with
  | null => exact ⟨[], [], rfl, rfl, fun _ => by simp⟩
  | node d l r ihl ihr =>
    unfold addTaskToTree
    split
    · rename_i hlt
      obtain ⟨b, a, h1, h2, h3⟩ := ihl
      refine ⟨b, a ++ d :: inorder r, ?_, ?_, ?_⟩
      · simp [inorder_node, h1]
      · simp [inorder_node, h2]
      · intro hb
        obtain ⟨_, hr, hbl, _⟩ := hb
        obtain ⟨h4, h5⟩ := h3 hbl
        refine ⟨h4, ?_⟩
        intro x hx
        rcases List.mem_append.1 hx with hx | hx
        · exact h5 x hx
        · rcases List.mem_cons.1 hx with hx | hx
          · subst hx; exact hlt
          · exact lt_of_lt_of_le hlt (hr x hx)
    · rename_i hge
      obtain ⟨b, a, h1, h2, h3⟩ := ihr
      refine ⟨inorder l ++ d :: b, a, ?_, ?_, ?_⟩
      · simp [inorder_node, h1]
      · simp [inorder_node, h2]
      · intro hb
        obtain ⟨hl, _, _, hbr⟩ := hb
        obtain ⟨h4, h5⟩ := h3 hbr
        refine ⟨?_, h5⟩
        intro x hx
        rcases List.mem_append.1 hx with hx | hx
        · exact le_of_lt (lt_of_lt_of_le (hl x hx) (not_lt.1 hge))
        · rcases List.mem_cons.1 hx with hx | hx
          · subst hx; exact not_lt.1 hge
          · exact h4 x hx

theorem mem_inorder_addTaskToTree (t : Task) (task x : Payload) :
    x ∈ inorder (addTaskToTree t task) ↔ x = task ∨ x ∈ inorder t := by
  obtain ⟨b, a, h1, h2, _⟩ := inorder_addTaskToTree t task
  rw [h1, h2]
  simp only [List.mem_append, List.mem_cons]
  tauto

theorem BST_addTaskToTree (t : Task) (task : Payload) (h : BST t) :
    BST (addTaskToTree t task) := by
  induction t with
  | null => simp [addTaskToTree, BST, inorder]
  | node d l r ihl ihr =>
    obtain ⟨hl, hr, hbl, hbr⟩ := h
    unfold addTaskToTree
    split
    · rename_i hlt
      refine ⟨?_, hr, ihl hbl, hbr⟩
      intro x hx
      rcases (mem_inorder_addTaskToTree l task x).1 hx with hx | hx
      · subst hx; exact hlt
      · exact hl x hx
    · rename_i hge
      refine ⟨hl, ?_, hbl, ihr hbr⟩
      intro x hx
      rcases (mem_inorder_addTaskToTree r task x).1 hx with hx | hx
      · subst hx; exact not_lt.1 hge
      · exact hr x hx

theorem buildTree_append (ts : List Payload) (task : Payload) :
    buildTree (ts ++ [task]) = addTaskToTree (buildTree ts) task := by
  simp [buildTree, List.foldl_append]

theorem BST_buildTree (ts : List Payload) : BST (buildTree ts) := by
  induction ts using List.reverseRecOn with
  | nil => exact trivial
  | append_singleton ts task ih =>
    rw [buildTree_append]
    exact BST_addTaskToTree _ _ ih

theorem mem_inorder_buildTree (ts : List Payload) (x : Payload) :
    x ∈ inorder (buildTree ts) ↔ x ∈ ts := by
  induction ts using List.reverseRecOn with
  | nil => simp [buildTree, inorder]
  | append_singleton ts task ih =>
    rw [buildTree_append, mem_inorder_addTaskToTree, ih]
    simp only [List.mem_append, List.mem_singleton]
    tauto

/-- Under the node invariant the in-order sequence is sorted by id. -/
theorem inorder_pairwise_of_BST (t : Task) (h : BST t) :
    (inorder t).Pairwise (fun x y => x.id ≤ y.id) := by
  induction t with
  | null => exact List.Pairwise.nil
  | node d l r ihl ihr =>
    obtain ⟨hl, hr, hbl, hbr⟩ := h
    rw [inorder_node, List.pairwise_append]
    refine ⟨ihl hbl, List.pairwise_cons.2 ⟨hr, ihr hbr⟩, ?_⟩
    intro x hx y hy
    rcases List.mem_cons.1 hy with hy | hy
    · subst hy; exact le_of_lt (hl x hx)
    · exact le_of_lt (lt_of_lt_of_le (hl x hx) (hr y hy))

/-- C1: for every finite sequence of tasks, the tree built by inserting them
one by one with `addTaskToTree` into the empty tree has an in-order traversal
whose ids are in non-decreasing order. -/
theorem inorderIds_buildTree_sorted (tasks : List Payload) :
    (inorderIds (buildTree tasks)).Sorted (fun a b => a ≤ b) := by
  unfold inorderIds List.Sorted
  rw [List.pairwise_map]
  exact inorder_pairwise_of_BST _ (BST_buildTree tasks)

/-! ## Lookup -/

/-- A record returned by the lookup carries the id asked for and is in the tree. -/
theorem findNodeInTree_node (t : Task) (taskId : Int) (d : Payload) (l r : Task)
    (h : findNodeInTree t taskId = .node d l r) : d.id = taskId ∧ d ∈ inorder t := by
  induction t with
  | null => simp [findNodeInTree] at h
  | node e el er ihl ihr =>
    unfold findNodeInTree at h
    split at h
    · rename_i heq
      injection h with h1 h2 h3
      subst h1
      exact ⟨heq, by simp [inorder_node]⟩
    · split at h
      · exact ⟨(ihr h).1, by simp [inorder_node, (ihr h).2]⟩
      · exact ⟨(ihl h).1, by simp [inorder_node, (ihl h).2]⟩

/-- The lookup of an id that no task in the tree has returns `NULL`. -/
theorem findNodeInTree_null_of_not_mem (t : Task) (taskId : Int)
    (h : ∀ x ∈ inorder t, x.id ≠ taskId) : findNodeInTree t taskId = .null := by
  cases hf : findNodeInTree t taskId with
  | null => rfl
  | node d l r =>
    obtain ⟨h1, h2⟩ := findNodeInTree_node t taskId d l r hf
    exact absurd h1 (h d h2)

/-- Under the node invariant the lookup of an id present in the tree succeeds. -/
theorem findNodeInTree_of_mem (t : Task) (taskId : Int) (hb : BST t)
    (h : ∃ x ∈ inorder t, x.id = taskId) :
    ∃ d l r, findNodeInTree t taskId = .node d l r := by
  induction t with
  | null => simp [inorder] at h
  | node e el er ihl ihr =>
    obtain ⟨hl, hr, hbl, hbr⟩ := hb
    obtain ⟨x, hx, hxid⟩ := h
    unfold findNodeInTree
    split
    · exact ⟨e, el, er, rfl⟩
    · rename_i hne
      rw [inorder_node] at hx
      split
      · rename_i hgt
        apply ihr hbr
        rcases List.mem_append.1 hx with hx | hx
        · have := hl x hx
          omega
        · rcases List.mem_cons.1 hx with hx | hx
          · subst hx; exact absurd hxid hne
          · exact ⟨x, hx, hxid⟩
      · rename_i hle
        apply ihl hbl
        rcases List.mem_append.1 hx with hx | hx
        · exact ⟨x, hx, hxid⟩
        · rcases List.mem_cons.1 hx with hx | hx
          · subst hx; exact absurd hxid hne
          · have := hr x hx
            omega

/-- C2: for every tree built by a sequence of `addTaskToTree` calls from the
empty tree and every id: if some inserted task has that id, `findNodeInTree`
returns a task whose id equals it; if no inserted task has that id (in
particular when nothing was inserted) it returns `NULL`. -/
theorem findNodeInTree_buildTree (tasks : List Payload) (taskId : Int) :
    ((∃ x ∈ tasks, x.id = taskId) →
        ∃ d l r, findNodeInTree (buildTree tasks) taskId = .node d l r ∧ d.id = taskId) ∧
    ((∀ x ∈ tasks, x.id ≠ taskId) → findNodeInTree (buildTree tasks) taskId = .null) ∧
    findNodeInTree (buildTree []) taskId = .null := by
  refine ⟨?_, ?_, rfl⟩
  · rintro ⟨x, hx, hxid⟩
    obtain ⟨d, l, r, hf⟩ := findNodeInTree_of_mem (buildTree tasks) taskId
      (BST_buildTree tasks) ⟨x, (mem_inorder_buildTree tasks x).2 hx, hxid⟩
    exact ⟨d, l, r, hf, (findNodeInTree_node _ _ _ _ _ hf).1⟩
  · intro h
    apply findNodeInTree_null_of_not_mem
    intro x hx
    exact h x ((mem_inorder_buildTree tasks x).1 hx)

/-- C2 at a concrete sequence: id 3 was inserted and is found, the sequence
has no id 9 and the lookup of 9 returns `NULL`. -/
theorem findNodeInTree_buildTree_witness :
    (∃ d l r, findNodeInTree (buildTree [⟨5, "X", 1, 1⟩, ⟨3, "Y", 1, 1⟩, ⟨7, "Z", 1, 0⟩]) 3
        = .node d l r ∧ d.id = 3) ∧
    findNodeInTree (buildTree [⟨5, "X", 1, 1⟩, ⟨3, "Y", 1, 1⟩, ⟨7, "Z", 1, 0⟩]) 9 = .null :=
  ⟨(findNodeInTree_buildTree [⟨5, "X", 1, 1⟩, ⟨3, "Y", 1, 1⟩, ⟨7, "Z", 1, 0⟩] 3).1
      ⟨⟨3, "Y", 1, 1⟩, by decide, rfl⟩,
   (findNodeInTree_buildTree [⟨5, "X", 1, 1⟩, ⟨3, "Y", 1, 1⟩, ⟨7, "Z", 1, 0⟩] 9).2.1
      (by decide)⟩

/-! ## Removal -/

/-- On a record that is present, `findMinimumIdTask` returns a record without
left child whose task is the first one of the in-order sequence. -/
theorem findMinimumIdTask_node (d : Payload) (l r : Task) :
    ∃ temp tr rest, findMinimumIdTask (.node d l r) = .node temp .null tr ∧
      inorder (.node d l r) = temp :: rest := by
  induction l generalizing d r with
  | null => exact ⟨d, r, inorder r, rfl, rfl⟩
  | node d1 l1 r1 ih1 _ =>
    obtain ⟨temp, tr, rest, h1, h2⟩ := ih1 d1 r1
    refine ⟨temp, tr, rest ++ d :: inorder r, ?_, ?_⟩
    · rw [findMinimumIdTask, h1]
    · rw [inorder_node, h2]; rfl

theorem removeTaskFromTree_lt (d : Payload) (l r : Task) (taskId : Int) (h : taskId < d.id) :
    removeTaskFromTree (.node d l r) taskId = .node d (removeTaskFromTree l taskId) r := by
  simp [removeTaskFromTree, h]

theorem removeTaskFromTree_gt (d : Payload) (l r : Task) (taskId : Int) (h : d.id < taskId) :
    removeTaskFromTree (.node d l r) taskId = .node d l (removeTaskFromTree r taskId) := by
  simp [removeTaskFromTree, h, not_lt.2 (le_of_lt h)]

theorem removeTaskFromTree_no_left (d : Payload) (r : Task) :
    removeTaskFromTree (.node d .null r) d.id = r := by
  simp [removeTaskFromTree]

theorem removeTaskFromTree_no_right (d dl : Payload) (ll lr : Task) :
    removeTaskFromTree (.node d (.node dl ll lr) .null) d.id = .node dl ll lr := by
  simp [removeTaskFromTree]

theorem removeTaskFromTree_two (d dl dr temp : Payload) (ll lr rl rr tl tr : Task)
    (h : findMinimumIdTask (.node dr rl rr) = .node temp tl tr) :
    removeTaskFromTree (.node d (.node dl ll lr) (.node dr rl rr)) d.id
      = .node temp (.node dl ll lr) (removeTaskFromTree (.node dr rl rr) temp.id) := by
  rw [removeTaskFromTree]
  simp [h]

/-- Under the node invariant the first task of the in-order sequence has the
smallest id. -/
theorem head_le_of_BST (t : Task) (hb : BST t) (temp : Payload) (rest : List Payload)
    (h : inorder t = temp :: rest) : ∀ x ∈ inorder t, temp.id ≤ x.id := by
  have hp := inorder_pairwise_of_BST t hb
  rw [h] at hp ⊢
  intro x hx
  rcases List.mem_cons.1 hx with hx | hx
  · subst hx; exact le_refl _
  · exact (List.pairwise_cons.1 hp).1 x hx

/-- Under the node invariant, removal deletes from the in-order sequence of
tasks the first task with the given id and nothing else (nothing at all when
no task has the id). -/
theorem inorder_removeTaskFromTree (t : Task) (hb : BST t) (taskId : Int) :
    inorder (removeTaskFromTree t taskId)
      = (inorder t).eraseP (fun x => decide (x.id = taskId)) := by
  induction t generalizing taskId with
  | null => rfl
  | node d l r ihl ihr =>
    obtain ⟨hl, hr, hbl, hbr⟩ := hb
    rcases lt_trichotomy taskId d.id with h | h | h
    · rw [removeTaskFromTree_lt _ _ _ _ h, inorder_node, inorder_node, ihl hbl]
      by_cases hex : ∃ x ∈ inorder l, x.id = taskId
      · obtain ⟨x, hx, hxid⟩ := hex
        rw [List.eraseP_append_left (a := x) (by simp [hxid]) _ hx]
      · have hno : ∀ x ∈ inorder l, ¬ (decide (x.id = taskId) = true) := by
          intro x hx hxid
          exact hex ⟨x, hx, of_decide_eq_true hxid⟩
        have hnr : ∀ x ∈ inorder r, ¬ (decide (x.id = taskId) = true) := by
          intro x hx hxid
          have := hr x hx
          have := of_decide_eq_true hxid
          omega
        rw [List.eraseP_append_right _ hno, List.eraseP_of_forall_not hno,
          List.eraseP_cons_of_neg (by simp; omega), List.eraseP_of_forall_not hnr]
    · subst h
      have hno : ∀ x ∈ inorder l, ¬ (decide (x.id = d.id) = true) := by
        intro x hx hxid
        have := hl x hx
        have := of_decide_eq_true hxid
        omega
      rw [inorder_node, List.eraseP_append_right _ hno, List.eraseP_cons_of_pos (by simp)]
      cases l with
      | null => rw [removeTaskFromTree_no_left]; rfl
      | node dl ll lr =>
        cases r with
        | null => rw [removeTaskFromTree_no_right]; simp [inorder]
        | node dr rl rr =>
          obtain ⟨temp, tr, rest, h1, h2⟩ := findMinimumIdTask_node dr rl rr
          rw [removeTaskFromTree_two _ _ _ _ _ _ _ _ _ _ h1, inorder_node, ihr hbr, h2,
            List.eraseP_cons_of_pos (by simp)]
    · have hno : ∀ x ∈ inorder l, ¬ (decide (x.id = taskId) = true) := by
        intro x hx hxid
        have := hl x hx
        have := of_decide_eq_true hxid
        omega
      rw [removeTaskFromTree_gt _ _ _ _ h, inorder_node, inorder_node, ihr hbr,
        List.eraseP_append_right _ hno, List.eraseP_cons_of_neg (by simp; omega)]

theorem length_inorder (t : Task) : (inorder t).length = nodeCount t := by
  induction t with
  | null => rfl
  | node d l r ihl ihr => simp [inorder_node, nodeCount, ihl, ihr]; omega

theorem length_inorderIds (t : Task) : (inorderIds t).length = nodeCount t := by
  simp [inorderIds, length_inorder]

/-- The id-level reading of `inorder_removeTaskFromTree`. -/
theorem inorderIds_removeTaskFromTree_erase (t : Task) (hb : BST t) (taskId : Int) :
    inorderIds (removeTaskFromTree t taskId) = (inorderIds t).erase taskId := by
  unfold inorderIds
  rw [inorder_removeTaskFromTree t hb, List.erase_eq_eraseP, List.eraseP_map]
  congr 1
  apply congrArg (fun p => List.eraseP p (inorder t))
  funext x
  by_cases h : x.id = taskId
  · simp [h]
  · have h2 : ¬ taskId = x.id := fun e => h e.symm
    simp [h, h2]

/-- C3: for every tree satisfying the node invariant and every id occurring in
it, the in-order id sequence of `removeTaskFromTree root id` is the in-order id
sequence of `root` with one occurrence of `id` removed, and the number of
records drops by exactly one. -/
theorem removeTaskFromTree_erases_one_id (root : Task) (taskId : Int) (hb : BST root)
    (hmem : taskId ∈ inorderIds root) :
    inorderIds (removeTaskFromTree root taskId) = (inorderIds root).erase taskId ∧
    nodeCount (removeTaskFromTree root taskId) + 1 = nodeCount root := by
  have h := inorderIds_removeTaskFromTree_erase root hb taskId
  refine ⟨h, ?_⟩
  have hlen := congrArg List.length h
  rw [List.length_erase_of_mem hmem, length_inorderIds, length_inorderIds] at hlen
  have hpos : 0 < nodeCount root := by
    rw [← length_inorderIds]
    exact List.length_pos_of_mem hmem
  omega

/-- C3 on the tree built from ids 1, 2, 3: removing 1 leaves ids 2, 3. -/
theorem removeTaskFromTree_erases_one_id_witness :
    inorderIds (removeTaskFromTree
        (buildTree [⟨1, "A", 10, 1⟩, ⟨2, "B", 5, 1⟩, ⟨3, "C", 20, 0⟩]) 1) = [2, 3] ∧
    nodeCount (removeTaskFromTree
        (buildTree [⟨1, "A", 10, 1⟩, ⟨2, "B", 5, 1⟩, ⟨3, "C", 20, 0⟩]) 1) + 1 = 3 :=
  removeTaskFromTree_erases_one_id
    (buildTree [⟨1, "A", 10, 1⟩, ⟨2, "B", 5, 1⟩, ⟨3, "C", 20, 0⟩]) 1 (by decide) (by decide)

theorem inorder_addTaskToTree_perm (t : Task) (task : Payload) :
    (inorder (addTaskToTree t task)).Perm (task :: inorder t) := by
  obtain ⟨b, a, h1, h2, _⟩ := inorder_addTaskToTree t task
  rw [h1, h2]
  exact List.perm_middle

theorem inorder_buildTree_perm (ts : List Payload) : (inorder (buildTree ts)).Perm ts := by
  induction ts using List.reverseRecOn with
  | nil => exact List.Perm.refl _
  | append_singleton ts task ih =>
    rw [buildTree_append]
    refine (inorder_addTaskToTree_perm _ _).trans ?_
    refine (List.Perm.cons task ih).trans ?_
    exact (List.perm_append_singleton task ts).symm

/-- C4: for every tree built by inserting tasks with pairwise distinct ids and
every id in it, the lookup of that id after `removeTaskFromTree root id`
returns `NULL`. -/
theorem findNodeInTree_removeTaskFromTree (tasks : List Payload) (taskId : Int)
    (hdistinct : (tasks.map (fun x => x.id)).Nodup)
    (hmem : taskId ∈ tasks.map (fun x => x.id)) :
    taskId ∈ inorderIds (buildTree tasks) ∧
    findNodeInTree (removeTaskFromTree (buildTree tasks) taskId) taskId = .null := by
  have hperm : (inorderIds (buildTree tasks)).Perm (tasks.map (fun x => x.id)) :=
    (inorder_buildTree_perm tasks).map _
  have hnodup : (inorderIds (buildTree tasks)).Nodup := hperm.nodup_iff.2 hdistinct
  refine ⟨hperm.mem_iff.2 hmem, ?_⟩
  apply findNodeInTree_null_of_not_mem
  intro x hx hxid
  have hin : x.id ∈ inorderIds (removeTaskFromTree (buildTree tasks) taskId) :=
    List.mem_map.2 ⟨x, hx, rfl⟩
  rw [inorderIds_removeTaskFromTree_erase _ (BST_buildTree tasks), hxid] at hin
  exact hnodup.not_mem_erase hin

/-- C4 on the tree built from ids 5, 3, 7: after removing 5 the lookup of 5
returns `NULL`. -/
theorem findNodeInTree_removeTaskFromTree_witness :
    (5 : Int) ∈ inorderIds (buildTree [⟨5, "X", 1, 1⟩, ⟨3, "Y", 1, 1⟩, ⟨7, "Z", 1, 1⟩]) ∧
    findNodeInTree
      (removeTaskFromTree (buildTree [⟨5, "X", 1, 1⟩, ⟨3, "Y", 1, 1⟩, ⟨7, "Z", 1, 1⟩]) 5) 5
      = .null :=
  findNodeInTree_removeTaskFromTree [⟨5, "X", 1, 1⟩, ⟨3, "Y", 1, 1⟩, ⟨7, "Z", 1, 1⟩] 5
    (by decide) (by decide)

theorem mem_inorder_of_mem_removeTaskFromTree (t : Task) (hb : BST t) (taskId : Int)
    (x : Payload) (hx : x ∈ inorder (removeTaskFromTree t taskId)) : x ∈ inorder t := by
  rw [inorder_removeTaskFromTree t hb] at hx
  exact List.mem_of_mem_eraseP hx

/-- Removal keeps the node invariant, whether or not ids are duplicated. -/
theorem BST_removeTaskFromTree (t : Task) (taskId : Int) (hb : BST t) :
    BST (removeTaskFromTree t taskId) := by
  induction t generalizing taskId with
  | null => exact trivial
  | node d l r ihl ihr =>
    obtain ⟨hl, hr, hbl, hbr⟩ := hb
    rcases lt_trichotomy taskId d.id with h | h | h
    · rw [removeTaskFromTree_lt _ _ _ _ h]
      exact ⟨fun x hx => hl x (mem_inorder_of_mem_removeTaskFromTree l hbl taskId x hx),
        hr, ihl taskId hbl, hbr⟩
    · subst h
      cases l with
      | null => rw [removeTaskFromTree_no_left]; exact hbr
      | node dl ll lr =>
        cases r with
        | null => rw [removeTaskFromTree_no_right]; exact hbl
        | node dr rl rr =>
          obtain ⟨temp, tr, rest, h1, h2⟩ := findMinimumIdTask_node dr rl rr
          rw [removeTaskFromTree_two _ _ _ _ _ _ _ _ _ _ h1]
          have hmin := head_le_of_BST _ hbr temp rest h2
          have htemp : d.id ≤ temp.id := hr temp (by rw [h2]; exact List.mem_cons_self _ _)
          refine ⟨fun x hx => lt_of_lt_of_le (hl x hx) htemp, ?_, hbl, ihr temp.id hbr⟩
          intro x hx
          exact hmin x (mem_inorder_of_mem_removeTaskFromTree _ hbr temp.id x hx)
    · rw [removeTaskFromTree_gt _ _ _ _ h]
      exact ⟨hl, fun x hx => hr x (mem_inorder_of_mem_removeTaskFromTree r hbr taskId x hx),
        hbl, ihr taskId hbr⟩

theorem runOps_append (ops : List Op) (op : Op) :
    runOps (ops ++ [op]) = applyOp (runOps ops) op := by
  simp [runOps, List.foldl_append]

theorem BST_runOps (ops : List Op) : BST (runOps ops) := by
  induction ops using List.reverseRecOn with
  | nil => exact trivial
  | append_singleton ops op ih =>
    rw [runOps_append]
    cases op with
    | add task => exact BST_addTaskToTree _ _ ih
    | remove taskId => exact BST_removeTaskFromTree _ _ ih

/-- C5: the node invariant (ids in the left subtree smaller, ids in the right
subtree greater or equal, at every node) holds for every tree reachable from
the empty tree by a finite sequence of `addTaskToTree` and
`removeTaskFromTree` operations; and `removeTaskFromTree` maps any tree with
the invariant to a tree with the invariant, duplicates or not. -/
theorem BST_reachable :
    (∀ ops : List Op, BST (runOps ops)) ∧
    (∀ (root : Task) (taskId : Int), BST root → BST (removeTaskFromTree root taskId)) :=
  ⟨BST_runOps, fun root taskId hb => BST_removeTaskFromTree root taskId hb⟩

/-- C5 on a tree holding id 5 twice: the tree has the invariant and so has the
tree left by removing 5. -/
theorem BST_reachable_witness :
    BST (runOps [.add ⟨5, "a", 1, 1⟩, .add ⟨3, "b", 1, 1⟩, .add ⟨5, "c", 1, 0⟩,
      .add ⟨8, "d", 1, 0⟩, .remove 5]) ∧
    BST (removeTaskFromTree
      (buildTree [⟨5, "a", 1, 1⟩, ⟨3, "b", 1, 1⟩, ⟨5, "c", 1, 0⟩, ⟨8, "d", 1, 0⟩]) 5) :=
  ⟨BST_reachable.1 _, BST_reachable.2 _ 5 (by decide)⟩

/-- Removing an id that no task in the tree has gives back the same tree. -/
theorem removeTaskFromTree_of_not_mem (t : Task) (taskId : Int)
    (h : ∀ x ∈ inorder t, x.id ≠ taskId) : removeTaskFromTree t taskId = t := by
  induction t with
  | null => rfl
  | node d l r ihl ihr =>
    have hd : d.id ≠ taskId := h d (by simp [inorder_node])
    have hl : ∀ x ∈ inorder l, x.id ≠ taskId := fun x hx => h x (by simp [inorder_node, hx])
    have hr : ∀ x ∈ inorder r, x.id ≠ taskId := fun x hx => h x (by simp [inorder_node, hx])
    rcases lt_or_gt_of_ne hd with hlt | hgt
    · rw [removeTaskFromTree_gt _ _ _ _ hlt, ihr hr]
    · rw [removeTaskFromTree_lt _ _ _ _ hgt, ihl hl]

/-- C6: for every tree satisfying the node invariant and every id that does
not occur in it (the empty tree included), `removeTaskFromTree root id` is
`root` itself: same shape, same payload in every record, hence the same
in-order id sequence. -/
theorem removeTaskFromTree_absent (root : Task) (taskId : Int) (_hb : BST root)
    (habsent : taskId ∉ inorderIds root) :
    removeTaskFromTree root taskId = root ∧
    inorderIds (removeTaskFromTree root taskId) = inorderIds root ∧
    removeTaskFromTree .null taskId = .null := by
  have h : removeTaskFromTree root taskId = root := by
    apply removeTaskFromTree_of_not_mem
    intro x hx hxid
    exact habsent (List.mem_map.2 ⟨x, hx, hxid⟩)
  exact ⟨h, by rw [h], rfl⟩

/-- C6 on the tree built from ids 5, 3, 7: removing 99 changes nothing. -/
theorem removeTaskFromTree_absent_witness :
    removeTaskFromTree (buildTree [⟨5, "X", 1, 1⟩, ⟨3, "Y", 1, 1⟩, ⟨7, "Z", 1, 0⟩]) 99
      = buildTree [⟨5, "X", 1, 1⟩, ⟨3, "Y", 1, 1⟩, ⟨7, "Z", 1, 0⟩] :=
  (removeTaskFromTree_absent (buildTree [⟨5, "X", 1, 1⟩, ⟨3, "Y", 1, 1⟩, ⟨7, "Z", 1, 0⟩]) 99
    (by decide) (by decide)).1

/-! ## The active-task report -/

theorem appendTaskToActiveTaskList_eq (l : ActiveTaskList) (task : Payload) :
    appendTaskToActiveTaskList l task = l ++ [task] := by
  induction l with
  | nil => rfl
  | cons x xs ih => simp [appendTaskToActiveTaskList, ih]

/-- The collected list is the given list followed by the Active tasks in
pre-order. -/
theorem createActiveTaskList_eq (acc : ActiveTaskList) (t : Task) :
    createActiveTaskList acc t = acc ++ (preorder t).filter (fun x => x.status = 1) := by
  induction t generalizing acc with
  | null => simp [createActiveTaskList, preorder]
  | node d l r ihl ihr =>
    simp only [createActiveTaskList, preorder, ihl, ihr, appendTaskToActiveTaskList_eq]
    by_cases h : d.status = 1 <;> simp [h, List.filter_cons]

theorem preorder_perm_inorder (t : Task) : (preorder t).Perm (inorder t) := by
  induction t with
  | null => exact List.Perm.refl _
  | node d l r ihl ihr =>
    rw [preorder, inorder_node]
    exact ((ihl.append ihr).cons d).trans List.perm_middle.symm

theorem sortInner_length (cur : Payload) (l : ActiveTaskList) :
    (sortInner cur l).2.length = l.length := by
  induction l generalizing cur with
  | nil => rfl
  | cons x xs ih =>
    unfold sortInner
    split <;> simp [ih]

/-- One run of the inner loop rearranges the tasks of the current element and
of the elements after it. -/
theorem sortInner_perm (cur : Payload) (l : ActiveTaskList) :
    ((sortInner cur l).1 :: (sortInner cur l).2).Perm (cur :: l) := by
  induction l generalizing cur with
  | nil => exact List.Perm.refl _
  | cons x xs ih =>
    unfold sortInner
    split
    · exact (List.Perm.swap _ _ _).trans ((ih x).cons cur)
    · exact ((List.Perm.swap _ _ _).trans ((ih cur).cons x)).trans (List.Perm.swap _ _ _)

/-- After the inner loop the current element holds a task whose time limit is
smallest among it and the later elements. -/
theorem sortInner_min (cur : Payload) (l : ActiveTaskList) :
    (sortInner cur l).1.timeLimit ≤ cur.timeLimit ∧
    ∀ x ∈ (sortInner cur l).2, (sortInner cur l).1.timeLimit ≤ x.timeLimit := by
  induction l generalizing cur with
  | nil => simp [sortInner]
  | cons y ys ih =>
    unfold sortInner
    split
    · rename_i hgt
      obtain ⟨h1, h2⟩ := ih y
      refine ⟨by simp only; omega, ?_⟩
      intro x hx
      rcases List.mem_cons.1 hx with hx | hx
      · subst hx; simp only; omega
      · exact h2 x hx
    · rename_i hle
      obtain ⟨h1, h2⟩ := ih cur
      refine ⟨h1, ?_⟩
      intro x hx
      rcases List.mem_cons.1 hx with hx | hx
      · subst hx; simp only; omega
      · exact h2 x hx

theorem sortActiveTaskList_nil : sortActiveTaskList [] = [] := by
  rw [sortActiveTaskList]

theorem sortActiveTaskList_cons (cur : Payload) (rest : ActiveTaskList) :
    sortActiveTaskList (cur :: rest)
      = (sortInner cur rest).1 :: sortActiveTaskList (sortInner cur rest).2 := by
  rw [sortActiveTaskList]

/-- The sort rearranges the tasks of the list: nothing is lost or added. -/
theorem sortActiveTaskList_perm (l : ActiveTaskList) : (sortActiveTaskList l).Perm l := by
  generalize hn : l.length = n
  induction n generalizing l with
  | zero =>
    rw [List.length_eq_zero.1 hn, sortActiveTaskList_nil]
  | succ n ih =>
    cases l with
    | nil => simp at hn
    | cons cur rest =>
      rw [sortActiveTaskList_cons]
      have hlen : (sortInner cur rest).2.length = n := by
        rw [sortInner_length]; simpa using hn
      exact ((ih _ hlen).cons _).trans (sortInner_perm cur rest)

/-- The sorted list has non-decreasing time limits. -/
theorem sortActiveTaskList_sorted (l : ActiveTaskList) :
    (sortActiveTaskList l).Pairwise (fun a b => a.timeLimit ≤ b.timeLimit) := by
  generalize hn : l.length = n
  induction n generalizing l with
  | zero =>
    rw [List.length_eq_zero.1 hn, sortActiveTaskList_nil]
    exact List.Pairwise.nil
  | succ n ih =>
    cases l with
    | nil => simp at hn
    | cons cur rest =>
      rw [sortActiveTaskList_cons]
      have hlen : (sortInner cur rest).2.length = n := by
        rw [sortInner_length]; simpa using hn
      refine List.pairwise_cons.2 ⟨?_, ih _ hlen⟩
      intro x hx
      exact (sortInner_min cur rest).2 x ((sortActiveTaskList_perm _).mem_iff.1 hx)

theorem printActiveRows_eq (l : ActiveTaskList) :
    printActiveRows l = l.map (formatRow "Ativa") := by
  induction l with
  | nil => rfl
  | cons x xs ih => simp [printActiveRows, ih]

/-- C7: for every tree (no invariant needed) the rows written by
`printActiveTasks`, that is the list produced by `sortActiveTaskList` from the
list collected by `createActiveTaskList`, have non-decreasing `timeLimit`. -/
theorem printActiveTasks_sorted (root : Task) :
    printActiveTasks root
      = (sortActiveTaskList (createActiveTaskList [] root)).map (formatRow "Ativa") ∧
    (printActiveTasks root).Sorted (fun a b => a.timeLimit ≤ b.timeLimit) := by
  refine ⟨printActiveRows_eq _, ?_⟩
  unfold printActiveTasks List.Sorted
  rw [printActiveRows_eq, List.pairwise_map]
  exact sortActiveTaskList_sorted _

/-- The tasks printed by the active report are a rearrangement of the Active
tasks of the tree. -/
theorem sortActiveTaskList_createActiveTaskList_perm (root : Task) :
    (sortActiveTaskList (createActiveTaskList [] root)).Perm
      ((inorder root).filter (fun x => x.status = 1)) := by
  refine (sortActiveTaskList_perm _).trans ?_
  rw [createActiveTaskList_eq, List.nil_append]
  exact (preorder_perm_inorder root).filter _

/-- C8: for every tree the tasks written by `printActiveTasks` are a
permutation of the tasks of the tree with `status == 1`: each Active task is
written exactly once, no other task is written, the written ids are the ids of
the Active tasks (as a multiset and as a set), and a tree without Active task
gives no row. -/
theorem printActiveTasks_perm (root : Task) :
    (printActiveTasks root).Perm
      (((inorder root).filter (fun x => x.status = 1)).map (formatRow "Ativa")) ∧
    ((printActiveTasks root).map (fun row => row.id)).Perm
      (((inorder root).filter (fun x => x.status = 1)).map (fun x => x.id)) ∧
    (∀ taskId, taskId ∈ (printActiveTasks root).map (fun row => row.id) ↔
      ∃ x ∈ inorder root, x.status = 1 ∧ x.id = taskId) ∧
    ((∀ x ∈ inorder root, x.status ≠ 1) → printActiveTasks root = []) := by
  have hrows : (printActiveTasks root).Perm
      (((inorder root).filter (fun x => x.status = 1)).map (formatRow "Ativa")) := by
    unfold printActiveTasks
    rw [printActiveRows_eq]
    exact (sortActiveTaskList_createActiveTaskList_perm root).map _
  have hids : ((printActiveTasks root).map (fun row => row.id)).Perm
      (((inorder root).filter (fun x => x.status = 1)).map (fun x => x.id)) := by
    have h := hrows.map (fun row : Row => row.id)
    rw [List.map_map] at h
    exact h
  refine ⟨hrows, hids, ?_, ?_⟩
  · intro taskId
    rw [hids.mem_iff]
    simp only [List.mem_map, List.mem_filter, decide_eq_true_eq]
    constructor
    · rintro ⟨x, ⟨hx, hs⟩, hid⟩
      exact ⟨x, hx, hs, hid⟩
    · rintro ⟨x, hx, hs, hid⟩
      exact ⟨x, ⟨hx, hs⟩, hid⟩
  · intro hnone
    have hnil : (inorder root).filter (fun x => x.status = 1) = [] := by
      rw [List.filter_eq_nil_iff]
      intro x hx
      simpa using hnone x hx
    rw [hnil] at hrows
    exact List.Perm.eq_nil hrows

/-- C8 on a tree whose only task is Completed: no row is written. -/
theorem printActiveTasks_perm_witness :
    printActiveTasks (buildTree [⟨3, "C", 20, 0⟩]) = [] :=
  (printActiveTasks_perm (buildTree [⟨3, "C", 20, 0⟩])).2.2.2 (by decide)

/-! ## The completed-task report -/

theorem printFinishedTasks_eq (t : Task) :
    printFinishedTasks t
      = ((inorder t).filter (fun x => x.status = 0)).map (formatRow "Concluida") := by
  induction t with
  | null => rfl
  | node d l r ihl ihr =>
    rw [printFinishedTasks, ihl, ihr, inorder_node]
    by_cases h : d.status = 0 <;> simp [h, List.filter_cons]

theorem finishedIds_eq (t : Task) :
    finishedIds t = ((inorder t).filter (fun x => x.status = 0)).map (fun x => x.id) := by
  rw [finishedIds, printFinishedTasks_eq, List.map_map]
  rfl

/-- C9, as stated, fails: two Completed tasks inserted with the same id are
both written, so the ids written are not strictly ascending. -/
theorem finishedIds_not_strictly_ascending :
    ¬ (finishedIds (buildTree [⟨1, "A", 10, 0⟩, ⟨1, "B", 5, 0⟩])).Sorted (fun a b => a < b) := by
  decide

/-- C9, amended: for every tree built by a sequence of inserts the rows written
by `printFinishedTasks` are in non-decreasing id order, in strictly ascending
id order when no two Completed tasks inserted share an id, and the ids written
are exactly the ids of the tasks with `status == 0`. -/
theorem finishedIds_buildTree (tasks : List Payload) :
    (finishedIds (buildTree tasks)).Sorted (fun a b => a ≤ b) ∧
    (((tasks.filter (fun x => x.status = 0)).map (fun x => x.id)).Nodup →
      (finishedIds (buildTree tasks)).Sorted (fun a b => a < b)) ∧
    (∀ taskId, taskId ∈ finishedIds (buildTree tasks) ↔
      ∃ x ∈ tasks, x.status = 0 ∧ x.id = taskId) := by
  have hsorted : (finishedIds (buildTree tasks)).Sorted (fun a b => a ≤ b) := by
    rw [finishedIds_eq]
    unfold List.Sorted
    rw [List.pairwise_map]
    exact (inorder_pairwise_of_BST _ (BST_buildTree tasks)).filter _
  have hperm : (finishedIds (buildTree tasks)).Perm
      ((tasks.filter (fun x => x.status = 0)).map (fun x => x.id)) := by
    rw [finishedIds_eq]
    exact ((inorder_buildTree_perm tasks).filter _).map _
  refine ⟨hsorted, fun hnodup => hsorted.lt_of_le (hperm.nodup_iff.2 hnodup), ?_⟩
  intro taskId
  rw [hperm.mem_iff]
  simp only [List.mem_map, List.mem_filter, decide_eq_true_eq]
  constructor
  · rintro ⟨x, ⟨hx, hs⟩, hid⟩
    exact ⟨x, hx, hs, hid⟩
  · rintro ⟨x, hx, hs, hid⟩
    exact ⟨x, ⟨hx, hs⟩, hid⟩

/-- C9 amended, on ids 2, 1, 3 with 2 and 3 Completed: the ids written are
strictly ascending. -/
theorem finishedIds_buildTree_witness :
    (finishedIds (buildTree [⟨2, "B", 5, 0⟩, ⟨1, "A", 10, 1⟩, ⟨3, "C", 20, 0⟩])).Sorted
      (fun a b => a < b) :=
  (finishedIds_buildTree [⟨2, "B", 5, 0⟩, ⟨1, "A", 10, 1⟩, ⟨3, "C", 20, 0⟩]).2.1 (by decide)

/-! ## Duplicate ids -/

theorem findNodeInTree_node_eq (d : Payload) (l r : Task) (taskId : Int) (h : d.id = taskId) :
    findNodeInTree (.node d l r) taskId = .node d l r := by
  simp [findNodeInTree, h]

theorem findNodeInTree_node_gt (d : Payload) (l r : Task) (taskId : Int) (h : d.id < taskId) :
    findNodeInTree (.node d l r) taskId = findNodeInTree r taskId := by
  have hne : ¬ d.id = taskId := by omega
  simp [findNodeInTree, hne, h]

theorem findNodeInTree_node_lt (d : Payload) (l r : Task) (taskId : Int) (h : taskId < d.id) :
    findNodeInTree (.node d l r) taskId = findNodeInTree l taskId := by
  have hne : ¬ d.id = taskId := by omega
  have hng : ¬ d.id < taskId := by omega
  simp [findNodeInTree, hne, hng]

theorem addTaskToTree_node_lt (d : Payload) (l r : Task) (task : Payload)
    (h : task.id < d.id) :
    addTaskToTree (.node d l r) task = .node d (addTaskToTree l task) r := by
  simp [addTaskToTree, h]

theorem addTaskToTree_node_ge (d : Payload) (l r : Task) (task : Payload)
    (h : d.id ≤ task.id) :
    addTaskToTree (.node d l r) task = .node d l (addTaskToTree r task) := by
  simp [addTaskToTree, not_lt.2 h]

/-- The record returned by a lookup roots a subtree with the node invariant. -/
theorem BST_findNodeInTree (t : Task) (taskId : Int) (hb : BST t) :
    BST (findNodeInTree t taskId) := by
  induction t with
  | null => exact trivial
  | node e el er ihl ihr =>
    rcases lt_trichotomy taskId e.id with h | h | h
    · rw [findNodeInTree_node_lt _ _ _ _ h]; exact ihl hb.2.2.1
    · rw [findNodeInTree_node_eq _ _ _ _ h.symm]; exact hb
    · rw [findNodeInTree_node_gt _ _ _ _ h]; exact ihr hb.2.2.2

/-- Inserting a task whose id is not in the tree makes the lookup of that id
return the new record. -/
theorem findNodeInTree_addTaskToTree_new (t : Task) (task : Payload)
    (h : findNodeInTree t task.id = .null) :
    findNodeInTree (addTaskToTree t task) task.id = .node task .null .null := by
  induction t with
  | null => simp [addTaskToTree, findNodeInTree]
  | node e el er ihl ihr =>
    rcases lt_trichotomy task.id e.id with hlt | heq | hgt
    · rw [findNodeInTree_node_lt _ _ _ _ hlt] at h
      rw [addTaskToTree_node_lt _ _ _ _ hlt, findNodeInTree_node_lt _ _ _ _ hlt]
      exact ihl h
    · rw [findNodeInTree_node_eq _ _ _ _ heq.symm] at h
      exact Task.noConfusion h
    · rw [findNodeInTree_node_gt _ _ _ _ hgt] at h
      rw [addTaskToTree_node_ge _ _ _ _ (le_of_lt hgt), findNodeInTree_node_gt _ _ _ _ hgt]
      exact ihr h

/-- Inserting a task whose id is already in the tree leaves the lookup of that
id on the same record; the new task goes into that record's right subtree. -/
theorem findNodeInTree_addTaskToTree_dup (t : Task) (task d : Payload) (l r : Task)
    (h : findNodeInTree t task.id = .node d l r) :
    findNodeInTree (addTaskToTree t task) task.id = .node d l (addTaskToTree r task) := by
  induction t with
  | null => simp [findNodeInTree] at h
  | node e el er ihl ihr =>
    rcases lt_trichotomy task.id e.id with hlt | heq | hgt
    · rw [findNodeInTree_node_lt _ _ _ _ hlt] at h
      rw [addTaskToTree_node_lt _ _ _ _ hlt, findNodeInTree_node_lt _ _ _ _ hlt]
      exact ihl h
    · rw [findNodeInTree_node_eq _ _ _ _ heq.symm] at h
      injection h with h1 h2 h3
      subst h1 h2 h3
      rw [addTaskToTree_node_ge _ _ _ _ (le_of_eq heq.symm),
        findNodeInTree_node_eq _ _ _ _ heq.symm]
    · rw [findNodeInTree_node_gt _ _ _ _ hgt] at h
      rw [addTaskToTree_node_ge _ _ _ _ (le_of_lt hgt), findNodeInTree_node_gt _ _ _ _ hgt]
      exact ihr h

/-- Inserting a task with another id does not change which tasks with the
given id the in-order sequence holds, nor their order. -/
theorem filter_inorder_addTaskToTree_ne (t : Task) (task : Payload) (taskId : Int)
    (hne : task.id ≠ taskId) :
    (inorder (addTaskToTree t task)).filter (fun x => x.id = taskId)
      = (inorder t).filter (fun x => x.id = taskId) := by
  obtain ⟨b, a, h1, h2, _⟩ := inorder_addTaskToTree t task
  rw [h1, h2]
  simp [List.filter_cons, hne]

/-- Under the node invariant a task inserted with an id already present comes
after all the tasks with that id in the in-order sequence. -/
theorem filter_inorder_addTaskToTree_eq (t : Task) (task : Payload) (hb : BST t) :
    (inorder (addTaskToTree t task)).filter (fun x => x.id = task.id)
      = (inorder t).filter (fun x => x.id = task.id) ++ [task] := by
  obtain ⟨b, a, h1, h2, h3⟩ := inorder_addTaskToTree t task
  have hafter : a.filter (fun x => decide (x.id = task.id)) = [] := by
    rw [List.filter_eq_nil_iff]
    intro x hx
    have := (h3 hb).2 x hx
    simp only [decide_eq_true_eq]
    omega
  rw [h1, h2]
  simp [List.filter_cons, hafter]

/-- Inserting a task with another id leaves the lookup of the given id on a
record with the same task; the tasks with the given id below it are the same. -/
theorem findNodeInTree_addTaskToTree_other (t : Task) (task : Payload) (taskId : Int)
    (hne : task.id ≠ taskId) (d : Payload) (l r : Task)
    (h : findNodeInTree t taskId = .node d l r) :
    ∃ l1 r1, findNodeInTree (addTaskToTree t task) taskId = .node d l1 r1 ∧
      (inorder l1).filter (fun x => x.id = taskId)
        = (inorder l).filter (fun x => x.id = taskId) ∧
      (inorder r1).filter (fun x => x.id = taskId)
        = (inorder r).filter (fun x => x.id = taskId) := by
  induction t with
  | null => simp [findNodeInTree] at h
  | node e el er ihl ihr =>
    rcases lt_trichotomy taskId e.id with hlt | heq | hgt
    · rw [findNodeInTree_node_lt _ _ _ _ hlt] at h
      by_cases hadd : task.id < e.id
      · rw [addTaskToTree_node_lt _ _ _ _ hadd, findNodeInTree_node_lt _ _ _ _ hlt]
        exact ihl h
      · rw [addTaskToTree_node_ge _ _ _ _ (not_lt.1 hadd), findNodeInTree_node_lt _ _ _ _ hlt]
        exact ⟨l, r, h, rfl, rfl⟩
    · rw [findNodeInTree_node_eq _ _ _ _ heq.symm] at h
      injection h with h1 h2 h3
      subst h1 h2 h3
      by_cases hadd : task.id < e.id
      · rw [addTaskToTree_node_lt _ _ _ _ hadd, findNodeInTree_node_eq _ _ _ _ heq.symm]
        exact ⟨_, _, rfl, filter_inorder_addTaskToTree_ne _ _ _ hne, rfl⟩
      · rw [addTaskToTree_node_ge _ _ _ _ (not_lt.1 hadd),
          findNodeInTree_node_eq _ _ _ _ heq.symm]
        exact ⟨_, _, rfl, rfl, filter_inorder_addTaskToTree_ne _ _ _ hne⟩
    · rw [findNodeInTree_node_gt _ _ _ _ hgt] at h
      by_cases hadd : task.id < e.id
      · rw [addTaskToTree_node_lt _ _ _ _ hadd, findNodeInTree_node_gt _ _ _ _ hgt]
        exact ⟨l, r, h, rfl, rfl⟩
      · rw [addTaskToTree_node_ge _ _ _ _ (not_lt.1 hadd), findNodeInTree_node_gt _ _ _ _ hgt]
        exact ihr h

/-- C10: for every sequence of inserts into the empty tree in which the tasks
with a given id are `first` followed by `later`, `findNodeInTree root id`
returns the record of `first`, the first-inserted task with that id; the
later-inserted tasks with that id are exactly the tasks with that id in the
right subtree of that record, below the record the lookup stops at, and none
is in its left subtree. -/
theorem findNodeInTree_first_inserted (tasks : List Payload) (taskId : Int)
    (first : Payload) (later : List Payload)
    (h : tasks.filter (fun x => x.id = taskId) = first :: later) :
    ∃ l r, findNodeInTree (buildTree tasks) taskId = .node first l r ∧
      (inorder r).filter (fun x => x.id = taskId) = later ∧
      (inorder l).filter (fun x => x.id = taskId) = [] := by
  induction tasks using List.reverseRecOn generalizing first later with
  | nil => simp at h
  | append_singleton ts task ih =>
    rw [buildTree_append]
    rw [List.filter_append] at h
    by_cases hid : task.id = taskId
    · subst hid
      have hlast : [task].filter (fun x => decide (x.id = task.id)) = [task] := by simp
      rw [hlast] at h
      cases hts : ts.filter (fun x => decide (x.id = task.id)) with
      | nil =>
        rw [hts] at h
        injection h with h1 h2
        subst h1 h2
        have hnone : findNodeInTree (buildTree ts) task.id = .null := by
          apply findNodeInTree_null_of_not_mem
          intro x hx hxid
          have hx2 : x ∈ ts.filter (fun x => decide (x.id = task.id)) :=
            List.mem_filter.2 ⟨(mem_inorder_buildTree ts x).1 hx, by simpa using hxid⟩
          rw [hts] at hx2
          exact List.not_mem_nil _ hx2
        exact ⟨.null, .null, findNodeInTree_addTaskToTree_new _ _ hnone, rfl, rfl⟩
      | cons f lt =>
        rw [hts] at h
        injection h with h1 h2
        subst h1 h2
        obtain ⟨l, r, hf, hr, hl⟩ := ih f lt hts
        have hbr : BST r := by
          have := BST_findNodeInTree (buildTree ts) task.id (BST_buildTree ts)
          rw [hf] at this
          exact this.2.2.2
        refine ⟨l, addTaskToTree r task, findNodeInTree_addTaskToTree_dup _ _ _ _ _ hf, ?_, hl⟩
        rw [filter_inorder_addTaskToTree_eq r task hbr, hr]
        rfl
    · have hlast : [task].filter (fun x => decide (x.id = taskId)) = [] := by simp [hid]
      rw [hlast, List.append_nil] at h
      obtain ⟨l, r, hf, hr, hl⟩ := ih first later h
      obtain ⟨l1, r1, hf1, hl1, hr1⟩ :=
        findNodeInTree_addTaskToTree_other _ task taskId hid first l r hf
      exact ⟨l1, r1, hf1, by rw [hr1, hr], by rw [hl1, hl]⟩

/-- C10 on ids 5, 3, 5, 5: the lookup of 5 returns the task inserted first and
the two later tasks with id 5 are the tasks with id 5 in its right subtree. -/
theorem findNodeInTree_first_inserted_witness :
    ∃ l r, findNodeInTree
        (buildTree [⟨5, "a", 1, 1⟩, ⟨3, "b", 2, 1⟩, ⟨5, "c", 3, 0⟩, ⟨5, "d", 4, 1⟩]) 5
        = .node ⟨5, "a", 1, 1⟩ l r ∧
      (inorder r).filter (fun x => x.id = 5) = [⟨5, "c", 3, 0⟩, ⟨5, "d", 4, 1⟩] ∧
      (inorder l).filter (fun x => x.id = 5) = [] :=
  findNodeInTree_first_inserted
    [⟨5, "a", 1, 1⟩, ⟨3, "b", 2, 1⟩, ⟨5, "c", 3, 0⟩, ⟨5, "d", 4, 1⟩] 5
    ⟨5, "a", 1, 1⟩ [⟨5, "c", 3, 0⟩, ⟨5, "d", 4, 1⟩] (by decide)

/-! ## Order of ties in the active-task sort -/

/-- When the current task has the smallest time limit the inner loop swaps
nothing. -/
theorem sortInner_of_le (cur : Payload) (l : ActiveTaskList)
    (h : ∀ x ∈ l, cur.timeLimit ≤ x.timeLimit) : sortInner cur l = (cur, l) := by
  induction l with
  | nil => rfl
  | cons y ys ih =>
    have hy : ¬ cur.timeLimit > y.timeLimit := not_lt.2 (h y (List.mem_cons_self _ _))
    have hys : ∀ x ∈ ys, cur.timeLimit ≤ x.timeLimit :=
      fun x hx => h x (List.mem_cons_of_mem _ hx)
    simp [sortInner, hy, ih hys]

/-- A list already in non-decreasing time-limit order is left as it is. -/
theorem sortActiveTaskList_of_sorted (l : ActiveTaskList)
    (h : l.Pairwise (fun a b => a.timeLimit ≤ b.timeLimit)) : sortActiveTaskList l = l := by
  induction l with
  | nil => exact sortActiveTaskList_nil
  | cons cur rest ih =>
    obtain ⟨h1, h2⟩ := List.pairwise_cons.1 h
    rw [sortActiveTaskList_cons, sortInner_of_le cur rest h1]
    simp only
    rw [ih h2]

/-- One run of the inner loop keeps the order of the tasks whose time limit is
the smallest one. -/
theorem sortInner_filter_min (k : Int) (cur : Payload) (l : ActiveTaskList)
    (hcur : k ≤ cur.timeLimit) (hl : ∀ x ∈ l, k ≤ x.timeLimit) :
    ((sortInner cur l).1 :: (sortInner cur l).2).filter (fun x => x.timeLimit = k)
      = (cur :: l).filter (fun x => x.timeLimit = k) := by
  induction l generalizing cur with
  | nil => rfl
  | cons y ys ih =>
    have hy : k ≤ y.timeLimit := hl y (List.mem_cons_self _ _)
    have hys : ∀ x ∈ ys, k ≤ x.timeLimit := fun x hx => hl x (List.mem_cons_of_mem _ hx)
    by_cases hswap : cur.timeLimit > y.timeLimit
    · have hne : ¬ cur.timeLimit = k := by omega
      have h1 := ih y hy hys
      simp only [sortInner, hswap, if_true]
      simp only [List.filter_cons, hne, decide_False, Bool.false_eq_true, if_false] at h1 ⊢
      exact h1
    · simp only [sortInner, hswap, if_false]
      by_cases hyk : y.timeLimit = k
      · have hmin : ∀ x ∈ ys, cur.timeLimit ≤ x.timeLimit := by
          intro x hx
          have := hys x hx
          omega
        rw [sortInner_of_le cur ys hmin]
      · have h1 := ih cur hcur hys
        simp only [List.filter_cons, hyk, decide_False, Bool.false_eq_true, if_false] at h1 ⊢
        exact h1

/-- The sort keeps the order of the tasks whose time limit is the smallest. -/
theorem sortActiveTaskList_filter_min (k : Int) (l : ActiveTaskList)
    (hl : ∀ x ∈ l, k ≤ x.timeLimit) :
    (sortActiveTaskList l).filter (fun x => x.timeLimit = k)
      = l.filter (fun x => x.timeLimit = k) := by
  generalize hn : l.length = n
  induction n generalizing l with
  | zero => rw [List.length_eq_zero.1 hn, sortActiveTaskList_nil]
  | succ n ih =>
    cases l with
    | nil => simp at hn
    | cons cur rest =>
      have hlen : (sortInner cur rest).2.length = n := by
        rw [sortInner_length]; simpa using hn
      have hmem : ∀ x ∈ (sortInner cur rest).2, k ≤ x.timeLimit := by
        intro x hx
        exact hl x ((sortInner_perm cur rest).mem_iff.1 (List.mem_cons_of_mem _ hx))
      have hstep := sortInner_filter_min k cur rest (hl cur (List.mem_cons_self _ _))
        (fun x hx => hl x (List.mem_cons_of_mem _ hx))
      rw [sortActiveTaskList_cons, ← hstep, List.filter_cons, List.filter_cons,
        ih _ hmem hlen]

/-- C11, as stated, fails: the tasks with ids 1, 2 (time limit 2) and 3 (time
limit 1) are collected in the order 1, 2, 3 and sorted into 3, 2, 1, so the
two tasks with time limit 2 come out in the reverse of their collected order. -/
theorem sortActiveTaskList_reverses_tie :
    createActiveTaskList [] (buildTree [⟨1, "A", 2, 1⟩, ⟨2, "B", 2, 1⟩, ⟨3, "C", 1, 1⟩])
      = [⟨1, "A", 2, 1⟩, ⟨2, "B", 2, 1⟩, ⟨3, "C", 1, 1⟩] ∧
    ¬ ((sortActiveTaskList
          (createActiveTaskList []
            (buildTree [⟨1, "A", 2, 1⟩, ⟨2, "B", 2, 1⟩, ⟨3, "C", 1, 1⟩]))).filter
          (fun x => x.timeLimit = 2)
        = (createActiveTaskList []
            (buildTree [⟨1, "A", 2, 1⟩, ⟨2, "B", 2, 1⟩, ⟨3, "C", 1, 1⟩])).filter
          (fun x => x.timeLimit = 2)) := by
  have hc : createActiveTaskList []
      (buildTree [⟨1, "A", 2, 1⟩, ⟨2, "B", 2, 1⟩, ⟨3, "C", 1, 1⟩])
      = [⟨1, "A", 2, 1⟩, ⟨2, "B", 2, 1⟩, ⟨3, "C", 1, 1⟩] := by decide
  refine ⟨hc, ?_⟩
  rw [hc]
  simp [sortActiveTaskList, sortInner]

/-- C11, amended: for every list of collected Active tasks, the tasks having
the smallest time limit of the list come out of `sortActiveTaskList` in the
order in which they were collected, and a list already in non-decreasing
time-limit order comes out unchanged (so all its ties keep their order). -/
theorem sortActiveTaskList_tie_order (collected : ActiveTaskList) :
    (∀ k : Int, (∀ x ∈ collected, k ≤ x.timeLimit) →
      (sortActiveTaskList collected).filter (fun x => x.timeLimit = k)
        = collected.filter (fun x => x.timeLimit = k)) ∧
    (collected.Pairwise (fun a b => a.timeLimit ≤ b.timeLimit) →
      sortActiveTaskList collected = collected) :=
  ⟨fun k hk => sortActiveTaskList_filter_min k collected hk,
   fun h => sortActiveTaskList_of_sorted collected h⟩

/-- C11 amended, on time limits 1, 2, 1: the two tasks with the smallest time
limit keep their order; and on time limits 1, 1, 2 the list is unchanged. -/
theorem sortActiveTaskList_tie_order_witness :
    (sortActiveTaskList [⟨5, "X", 1, 1⟩, ⟨3, "Y", 2, 1⟩, ⟨7, "Z", 1, 1⟩]).filter
        (fun x => x.timeLimit = 1)
      = [⟨5, "X", 1, 1⟩, ⟨7, "Z", 1, 1⟩] ∧
    sortActiveTaskList [⟨5, "X", 1, 1⟩, ⟨3, "Y", 1, 1⟩, ⟨7, "Z", 2, 1⟩]
      = [⟨5, "X", 1, 1⟩, ⟨3, "Y", 1, 1⟩, ⟨7, "Z", 2, 1⟩] :=
  ⟨(sortActiveTaskList_tie_order [⟨5, "X", 1, 1⟩, ⟨3, "Y", 2, 1⟩, ⟨7, "Z", 1, 1⟩]).1 1
      (by decide),
   (sortActiveTaskList_tie_order [⟨5, "X", 1, 1⟩, ⟨3, "Y", 1, 1⟩, ⟨7, "Z", 2, 1⟩]).2
      (by decide)⟩

/-! ## Released memory -/

/-- The printing loop leaves `taskList` at `NULL`. -/
theorem printActiveLoopEnd_eq_nil (l : ActiveTaskList) : printActiveLoopEnd l = [] := by
  induction l with
  | nil => rfl
  | cons x xs ih => simpa [printActiveLoopEnd] using ih

/-- `printActiveTasks` releases nothing, whatever the tree. -/
theorem printActiveTasksFreed_eq_nil (root : Task) : printActiveTasksFreed root = [] := by
  rw [printActiveTasksFreed, printActiveLoopEnd_eq_nil]
  rfl

/-- C12: the code at a tree with two Active tasks.  Two list elements are
collected and printed, but the pointer handed to `deleteActiveTaskList` is
`NULL` and no element is released. -/
theorem printActiveTasks_releases_nothing :
    sortActiveTaskList
        (createActiveTaskList []
          (buildTree [⟨1, "A", 10, 1⟩, ⟨2, "B", 5, 1⟩, ⟨3, "C", 20, 0⟩]))
      = [⟨2, "B", 5, 1⟩, ⟨1, "A", 10, 1⟩] ∧
    printActiveLoopEnd
        (sortActiveTaskList
          (createActiveTaskList []
            (buildTree [⟨1, "A", 10, 1⟩, ⟨2, "B", 5, 1⟩, ⟨3, "C", 20, 0⟩]))) = [] ∧
    printActiveTasksFreed (buildTree [⟨1, "A", 10, 1⟩, ⟨2, "B", 5, 1⟩, ⟨3, "C", 20, 0⟩])
      = [] := by
  have hc : createActiveTaskList []
      (buildTree [⟨1, "A", 10, 1⟩, ⟨2, "B", 5, 1⟩, ⟨3, "C", 20, 0⟩])
      = [⟨1, "A", 10, 1⟩, ⟨2, "B", 5, 1⟩] := by decide
  refine ⟨?_, printActiveLoopEnd_eq_nil _, printActiveTasksFreed_eq_nil _⟩
  rw [hc]
  simp [sortActiveTaskList, sortInner]

theorem removeAllTasksFromTree_eq (t : Task) :
    removeAllTasksFromTree t = (postorder t).map Freed.record := by
  induction t with
  | null => rfl
  | node d l r ihl ihr => simp [removeAllTasksFromTree, postorder, ihl, ihr]

theorem postorder_perm_inorder (t : Task) : (postorder t).Perm (inorder t) := by
  induction t with
  | null => exact List.Perm.refl _
  | node d l r ihl ihr =>
    rw [postorder, inorder_node, List.append_assoc]
    refine (ihl.append_right _).trans ((List.Perm.append_left _ ?_))
    exact (List.perm_append_singleton d (postorder r)).trans (ihr.cons d)

/-- With nothing released the checked lookup is `findNodeInTree`. -/
theorem findNodeInTreeIn_nil (t : Task) (taskId : Int) :
    findNodeInTreeIn [] t taskId = some (findNodeInTree t taskId) := by
  induction t with
  | null => rfl
  | node d l r ihl ihr =>
    unfold findNodeInTreeIn findNodeInTree
    simp only [List.not_mem_nil, if_false]
    split
    · rfl
    · split
      · exact ihr
      · exact ihl

/-- Every record of the tree is among the records released. -/
theorem mem_removeAllTasksFromTree (t : Task) (x : Payload) (hx : x ∈ inorder t) :
    Freed.record x ∈ removeAllTasksFromTree t := by
  rw [removeAllTasksFromTree_eq]
  exact List.mem_map.2 ⟨x, (postorder_perm_inorder t).mem_iff.2 hx, rfl⟩

/-- After `removeAllTasksFromTree(root)` on a non-empty tree the lookup through
`root` reads a released record. -/
theorem findNodeInTreeAfterRemoveAll_node (d : Payload) (l r : Task) (taskId : Int) :
    findNodeInTreeAfterRemoveAll (.node d l r) taskId = none := by
  have hmem : Freed.record d ∈ removeAllTasksFromTree (.node d l r) :=
    mem_removeAllTasksFromTree _ d (by simp [inorder_node])
  unfold findNodeInTreeAfterRemoveAll findNodeInTreeIn
  rw [if_pos hmem]

/-- C13, as stated, fails: after `removeAllTasksFromTree(root)` on the tree
holding the single task with id 1 the caller's `root` still points to the
released record, and `findNodeInTree(root, 1)` reads it instead of returning
`NULL`. -/
theorem findNodeInTreeAfterRemoveAll_not_absent :
    removeAllTasksFromTree (buildTree [⟨1, "A", 10, 1⟩]) = [.record ⟨1, "A", 10, 1⟩] ∧
    findNodeInTreeAfterRemoveAll (buildTree [⟨1, "A", 10, 1⟩]) 1 = none ∧
    ¬ (findNodeInTreeAfterRemoveAll (buildTree [⟨1, "A", 10, 1⟩]) 1 = some .null) := by
  decide

/-- C13, amended: `removeAllTasksFromTree root` releases every record of the
tree, each exactly once and in post-order (children before their parent), and
releases nothing on the empty tree; a following `findNodeInTree` through the
caller's `root` returns `NULL` for every id exactly when the tree was empty,
and on a non-empty tree it reads a released record, whatever the id. -/
theorem removeAllTasksFromTree_releases_all (root : Task) :
    removeAllTasksFromTree root = (postorder root).map Freed.record ∧
    (removeAllTasksFromTree root).Perm ((inorder root).map Freed.record) ∧
    (removeAllTasksFromTree root).length = nodeCount root ∧
    (∀ x ∈ inorder root, Freed.record x ∈ removeAllTasksFromTree root) ∧
    removeAllTasksFromTree .null = [] ∧
    (∀ taskId : Int, findNodeInTreeAfterRemoveAll root taskId = some .null ↔ root = .null) ∧
    (root ≠ .null → ∀ taskId : Int, findNodeInTreeAfterRemoveAll root taskId = none) := by
  have hperm : (removeAllTasksFromTree root).Perm ((inorder root).map Freed.record) := by
    rw [removeAllTasksFromTree_eq]
    exact (postorder_perm_inorder root).map _
  refine ⟨removeAllTasksFromTree_eq root, hperm, ?_, mem_removeAllTasksFromTree root, rfl,
    ?_, ?_⟩
  · rw [hperm.length_eq, List.length_map, length_inorder]
  · intro taskId
    cases root with
    | null => exact ⟨fun _ => rfl, fun _ => rfl⟩
    | node d l r =>
      rw [findNodeInTreeAfterRemoveAll_node]
      exact ⟨fun h => Option.noConfusion h, fun h => Task.noConfusion h⟩
  · intro hne taskId
    cases root with
    | null => exact absurd rfl hne
    | node d l r => exact findNodeInTreeAfterRemoveAll_node d l r taskId

/-- C13 amended, on the tree built from ids 5, 3, 7: the three records are
released in post-order 3, 7, 5 and the lookup of 3 through the old root is
undefined. -/
theorem removeAllTasksFromTree_releases_all_witness :
    removeAllTasksFromTree (buildTree [⟨5, "X", 1, 1⟩, ⟨3, "Y", 1, 1⟩, ⟨7, "Z", 1, 0⟩])
      = [.record ⟨3, "Y", 1, 1⟩, .record ⟨7, "Z", 1, 0⟩, .record ⟨5, "X", 1, 1⟩] ∧
    findNodeInTreeAfterRemoveAll
      (buildTree [⟨5, "X", 1, 1⟩, ⟨3, "Y", 1, 1⟩, ⟨7, "Z", 1, 0⟩]) 3 = none :=
  ⟨(removeAllTasksFromTree_releases_all
      (buildTree [⟨5, "X", 1, 1⟩, ⟨3, "Y", 1, 1⟩, ⟨7, "Z", 1, 0⟩])).1,
   (removeAllTasksFromTree_releases_all
      (buildTree [⟨5, "X", 1, 1⟩, ⟨3, "Y", 1, 1⟩, ⟨7, "Z", 1, 0⟩])).2.2.2.2.2.2
      (by decide) 3⟩

/-! ## The cases of removal at the root -/

/-- C14: when the root carries the id to delete and has both a left and a
right child, `removeTaskFromTree` returns a record whose payload is the
payload of `findMinimumIdTask(right subtree)`, whose left subtree is the
original left subtree and whose right subtree is
`removeTaskFromTree(right subtree, successor id)`. -/
theorem removeTaskFromTree_two_children (d : Payload) (l r : Task) (taskId : Int)
    (hid : d.id = taskId) (hl : l ≠ .null) (hr : r ≠ .null) :
    ∃ temp tl tr, findMinimumIdTask r = .node temp tl tr ∧
      removeTaskFromTree (.node d l r) taskId
        = .node temp l (removeTaskFromTree r temp.id) := by
  subst hid
  cases l with
  | null => exact absurd rfl hl
  | node dl ll lr =>
    cases r with
    | null => exact absurd rfl hr
    | node dr rl rr =>
      obtain ⟨temp, tr, _, h1, _⟩ := findMinimumIdTask_node dr rl rr
      exact ⟨temp, .null, tr, h1, removeTaskFromTree_two _ _ _ _ _ _ _ _ _ _ h1⟩

/-- C14 on the tree built from ids 5, 3, 8, 6: removing 5 puts the task with
id 6 at the root, keeps the left subtree and removes 6 from the right one. -/
theorem removeTaskFromTree_two_children_witness :
    ∃ temp tl tr,
      findMinimumIdTask (.node ⟨8, "c", 3, 1⟩ (.node ⟨6, "d", 4, 0⟩ .null .null) .null)
        = .node temp tl tr ∧
      removeTaskFromTree
          (.node ⟨5, "a", 1, 1⟩ (.node ⟨3, "b", 2, 1⟩ .null .null)
            (.node ⟨8, "c", 3, 1⟩ (.node ⟨6, "d", 4, 0⟩ .null .null) .null)) 5
        = .node temp (.node ⟨3, "b", 2, 1⟩ .null .null)
            (removeTaskFromTree
              (.node ⟨8, "c", 3, 1⟩ (.node ⟨6, "d", 4, 0⟩ .null .null) .null) temp.id) :=
  removeTaskFromTree_two_children ⟨5, "a", 1, 1⟩ (.node ⟨3, "b", 2, 1⟩ .null .null)
    (.node ⟨8, "c", 3, 1⟩ (.node ⟨6, "d", 4, 0⟩ .null .null) .null) 5
    rfl (by decide) (by decide)

/-- C15: when the root carries the id to delete, `removeTaskFromTree` returns
the root's right subtree as it is if there is no left child (the empty tree
for a leaf), and the root's left subtree as it is if there is a left child
and no right child. -/
theorem removeTaskFromTree_one_child (d : Payload) (l r : Task) (taskId : Int)
    (hid : d.id = taskId) :
    (l = .null → removeTaskFromTree (.node d l r) taskId = r) ∧
    (l ≠ .null → r = .null → removeTaskFromTree (.node d l r) taskId = l) ∧
    removeTaskFromTree (.node d .null .null) taskId = .null := by
  subst hid
  refine ⟨?_, ?_, removeTaskFromTree_no_left d .null⟩
  · intro hl
    subst hl
    exact removeTaskFromTree_no_left d r
  · intro hl hr
    subst hr
    cases l with
    | null => exact absurd rfl hl
    | node dl ll lr => exact removeTaskFromTree_no_right d dl ll lr

/-- C15 at a root with id 5: with only a right child the right child is
returned, with only a left child the left child is returned. -/
theorem removeTaskFromTree_one_child_witness :
    removeTaskFromTree (.node ⟨5, "a", 1, 1⟩ .null (.node ⟨8, "c", 3, 1⟩ .null .null)) 5
      = .node ⟨8, "c", 3, 1⟩ .null .null ∧
    removeTaskFromTree (.node ⟨5, "a", 1, 1⟩ (.node ⟨3, "b", 2, 1⟩ .null .null) .null) 5
      = .node ⟨3, "b", 2, 1⟩ .null .null :=
  ⟨(removeTaskFromTree_one_child ⟨5, "a", 1, 1⟩ .null
      (.node ⟨8, "c", 3, 1⟩ .null .null) 5 rfl).1 rfl,
   (removeTaskFromTree_one_child ⟨5, "a", 1, 1⟩ (.node ⟨3, "b", 2, 1⟩ .null .null)
      .null 5 rfl).2.1 (by decide) rfl⟩

/-! ## The minimum -/

/-- The record returned by `findMinimumIdTask` is reached by following `left`
pointers only. -/
theorem findMinimumIdTask_leftDescend (d : Payload) (l r : Task) :
    ∃ n, leftDescend n (.node d l r) = findMinimumIdTask (.node d l r) := by
  induction l generalizing d r with
  | null => exact ⟨0, rfl⟩
  | node d1 l1 r1 ih1 _ =>
    obtain ⟨n, hn⟩ := ih1 d1 r1
    refine ⟨n + 1, ?_⟩
    rw [findMinimumIdTask, ← hn]
    rfl

/-- C16: on a non-empty tree with the node invariant `findMinimumIdTask`
returns the leftmost record (reached by `left` pointers only, without left
child), whose task is the first of the in-order traversal and has an id `≤`
the id of every task in the tree; on the empty tree it returns `NULL`. -/
theorem findMinimumIdTask_leftmost (root : Task) (hne : root ≠ .null) (hb : BST root) :
    (∃ temp tr rest n, findMinimumIdTask root = .node temp .null tr ∧
      leftDescend n root = .node temp .null tr ∧
      inorder root = temp :: rest ∧
      ∀ x ∈ inorder root, temp.id ≤ x.id) ∧
    findMinimumIdTask .null = .null := by
  refine ⟨?_, rfl⟩
  cases root with
  | null => exact absurd rfl hne
  | node d l r =>
    obtain ⟨temp, tr, rest, h1, h2⟩ := findMinimumIdTask_node d l r
    obtain ⟨n, hn⟩ := findMinimumIdTask_leftDescend d l r
    exact ⟨temp, tr, rest, n, h1, hn.trans h1, h2, head_le_of_BST _ hb temp rest h2⟩

/-- C16 on the tree built from ids 5, 3, 8, 1. -/
theorem findMinimumIdTask_leftmost_witness :
    (∃ temp tr rest n,
      findMinimumIdTask
          (buildTree [⟨5, "a", 1, 1⟩, ⟨3, "b", 2, 1⟩, ⟨8, "c", 3, 1⟩, ⟨1, "d", 4, 0⟩])
        = .node temp .null tr ∧
      leftDescend n
          (buildTree [⟨5, "a", 1, 1⟩, ⟨3, "b", 2, 1⟩, ⟨8, "c", 3, 1⟩, ⟨1, "d", 4, 0⟩])
        = .node temp .null tr ∧
      inorder (buildTree [⟨5, "a", 1, 1⟩, ⟨3, "b", 2, 1⟩, ⟨8, "c", 3, 1⟩, ⟨1, "d", 4, 0⟩])
        = temp :: rest ∧
      ∀ x ∈ inorder
          (buildTree [⟨5, "a", 1, 1⟩, ⟨3, "b", 2, 1⟩, ⟨8, "c", 3, 1⟩, ⟨1, "d", 4, 0⟩]),
        temp.id ≤ x.id) ∧
    findMinimumIdTask .null = .null :=
  findMinimumIdTask_leftmost
    (buildTree [⟨5, "a", 1, 1⟩, ⟨3, "b", 2, 1⟩, ⟨8, "c", 3, 1⟩, ⟨1, "d", 4, 0⟩])
    (by decide) (by decide)

/-! ## Collection order -/

/-- C17: `createActiveTaskList(NULL, root)` is the pre-order (self, left,
right) traversal of the tree restricted to the tasks with `status == 1`, in
that order; `createActiveTaskList(l, root)` is `l` followed by that sequence;
each task found is appended at the tail. -/
theorem createActiveTaskList_preorder (root : Task) (l : ActiveTaskList) :
    createActiveTaskList [] root = (preorder root).filter (fun x => x.status = 1) ∧
    createActiveTaskList l root = l ++ (preorder root).filter (fun x => x.status = 1) ∧
    (∀ task, appendTaskToActiveTaskList l task = l ++ [task]) := by
  refine ⟨?_, createActiveTaskList_eq l root, appendTaskToActiveTaskList_eq l⟩
  rw [createActiveTaskList_eq, List.nil_append]

/-! ## The tree sorts stably -/

/-- The tasks with a given id appear in the in-order sequence of the built
tree in the order of their insertion. -/
theorem filter_inorder_buildTree (ts : List Payload) (k : Int) :
    (inorder (buildTree ts)).filter (fun x => x.id = k) = ts.filter (fun x => x.id = k) := by
  induction ts using List.reverseRecOn with
  | nil => rfl
  | append_singleton ts task ih =>
    rw [buildTree_append, List.filter_append]
    by_cases hk : task.id = k
    · subst hk
      rw [filter_inorder_addTaskToTree_eq _ _ (BST_buildTree ts), ih]
      simp
    · rw [filter_inorder_addTaskToTree_ne _ _ _ hk, ih]
      simp [hk]

/-- Two id-sorted lists that hold, for every id, the same tasks in the same
order are equal. -/
theorem eq_of_sorted_of_filter_eq (l1 l2 : List Payload)
    (h1 : l1.Pairwise (fun a b => a.id ≤ b.id)) (h2 : l2.Pairwise (fun a b => a.id ≤ b.id))
    (hf : ∀ k : Int, l1.filter (fun x => x.id = k) = l2.filter (fun x => x.id = k)) :
    l1 = l2 := by
  induction l1 generalizing l2 with
  | nil =>
    cases l2 with
    | nil => rfl
    | cons b l2 =>
      have := hf b.id
      simp at this
  | cons a l1 ih =>
    cases l2 with
    | nil =>
      have := hf a.id
      simp at this
    | cons b l2 =>
      obtain ⟨ha, h1t⟩ := List.pairwise_cons.1 h1
      obtain ⟨hb, h2t⟩ := List.pairwise_cons.1 h2
      have hba : b.id ≤ a.id := by
        have hmem : a ∈ (b :: l2).filter (fun x => decide (x.id = a.id)) := by
          rw [← hf a.id]; simp
        rcases List.mem_cons.1 (List.mem_filter.1 hmem).1 with h | h
        · rw [h]
        · exact hb a h
      have hab : a.id ≤ b.id := by
        have hmem : b ∈ (a :: l1).filter (fun x => decide (x.id = b.id)) := by
          rw [hf b.id]; simp
        rcases List.mem_cons.1 (List.mem_filter.1 hmem).1 with h | h
        · rw [h]
        · exact ha b h
      have hid : b.id = a.id := le_antisymm hba hab
      have hhead := hf a.id
      simp only [List.filter_cons, hid, decide_True, if_true] at hhead
      injection hhead with hhd htl
      subst hhd
      congr 1
      apply ih l2 h1t h2t
      intro k
      by_cases hk : a.id = k
      · subst hk; exact htl
      · have := hf k
        simpa [List.filter_cons, hk] using this

theorem stableSortById_sorted (ts : List Payload) :
    (stableSortById ts).Pairwise (fun a b => a.id ≤ b.id) := by
  haveI : IsTotal Payload (fun a b => a.id ≤ b.id) := ⟨fun a b => le_total a.id b.id⟩
  haveI : IsTrans Payload (fun a b => a.id ≤ b.id) := ⟨fun _ _ _ h1 h2 => le_trans h1 h2⟩
  exact List.sorted_insertionSort (fun a b : Payload => a.id ≤ b.id) ts

/-- The stable sort keeps, for every id, the tasks with that id in order. -/
theorem filter_stableSortById (ts : List Payload) (k : Int) :
    (stableSortById ts).filter (fun x => x.id = k) = ts.filter (fun x => x.id = k) := by
  have hpair : (ts.filter (fun x => decide (x.id = k))).Pairwise (fun a b => a.id ≤ b.id) := by
    apply List.pairwise_of_forall_mem_list
    intro a ha b hb
    have ha2 := (List.mem_filter.1 ha).2
    have hb2 := (List.mem_filter.1 hb).2
    simp only [decide_eq_true_eq] at ha2 hb2
    omega
  have hsub : List.Sublist (ts.filter (fun x => decide (x.id = k))) (stableSortById ts) :=
    List.sublist_insertionSort hpair (List.filter_sublist ts)
  have hsub2 := hsub.filter (fun x => decide (x.id = k))
  rw [List.filter_filter] at hsub2
  simp only [Bool.and_self] at hsub2
  have hperm : ((stableSortById ts).filter (fun x => decide (x.id = k))).Perm
      (ts.filter (fun x => decide (x.id = k))) :=
    (List.perm_insertionSort _ ts).filter _
  exact (hsub2.eq_of_length hperm.length_eq.symm).symm

/-- C18: the in-order sequence of tasks of the tree built by inserting a
sequence of tasks into the empty tree is the stable sort of the sequence by
id; and `addTaskToTree` on a tree with the node invariant places the new task
in the in-order sequence after all tasks with id `≤` its id and before all
tasks with id `>` its id, the other tasks staying in their order. -/
theorem inorder_buildTree_stableSort (tasks : List Payload) :
    inorder (buildTree tasks) = stableSortById tasks ∧
    (∀ (t : Task) (task : Payload), BST t →
      ∃ before after, inorder t = before ++ after ∧
        inorder (addTaskToTree t task) = before ++ task :: after ∧
        (∀ x ∈ before, x.id ≤ task.id) ∧ (∀ x ∈ after, task.id < x.id)) := by
  constructor
  · apply eq_of_sorted_of_filter_eq
    · exact inorder_pairwise_of_BST _ (BST_buildTree tasks)
    · exact stableSortById_sorted tasks
    · intro k
      rw [filter_inorder_buildTree, filter_stableSortById]
  · intro t task hb
    obtain ⟨b, a, h1, h2, h3⟩ := inorder_addTaskToTree t task
    exact ⟨b, a, h1, h2, (h3 hb).1, (h3 hb).2⟩

/-- C18 on ids 3, 1, 3, 1: the two tasks with id 1 and the two with id 3 keep
their insertion order; and inserting a third task with id 1 places it after
them and before the tasks with id 3. -/
theorem inorder_buildTree_stableSort_witness :
    inorder (buildTree [⟨3, "a", 1, 1⟩, ⟨1, "b", 2, 1⟩, ⟨3, "c", 3, 0⟩, ⟨1, "d", 4, 0⟩])
      = [⟨1, "b", 2, 1⟩, ⟨1, "d", 4, 0⟩, ⟨3, "a", 1, 1⟩, ⟨3, "c", 3, 0⟩] ∧
    ∃ before after,
      inorder (buildTree [⟨3, "a", 1, 1⟩, ⟨1, "b", 2, 1⟩, ⟨3, "c", 3, 0⟩, ⟨1, "d", 4, 0⟩])
        = before ++ after ∧
      inorder (addTaskToTree
          (buildTree [⟨3, "a", 1, 1⟩, ⟨1, "b", 2, 1⟩, ⟨3, "c", 3, 0⟩, ⟨1, "d", 4, 0⟩])
          ⟨1, "e", 5, 1⟩)
        = before ++ ⟨1, "e", 5, 1⟩ :: after ∧
      (∀ x ∈ before, x.id ≤ 1) ∧ (∀ x ∈ after, 1 < x.id) :=
  ⟨(inorder_buildTree_stableSort
      [⟨3, "a", 1, 1⟩, ⟨1, "b", 2, 1⟩, ⟨3, "c", 3, 0⟩, ⟨1, "d", 4, 0⟩]).1,
   (inorder_buildTree_stableSort
      [⟨3, "a", 1, 1⟩, ⟨1, "b", 2, 1⟩, ⟨3, "c", 3, 0⟩, ⟨1, "d", 4, 0⟩]).2
      (buildTree [⟨3, "a", 1, 1⟩, ⟨1, "b", 2, 1⟩, ⟨3, "c", 3, 0⟩, ⟨1, "d", 4, 0⟩])
      ⟨1, "e", 5, 1⟩ (by decide)⟩

/-! ## Removal and lookup -/

/-- Under the node invariant the lookup returns the first task of the in-order
sequence that has the id asked for, if there is one. -/
theorem payloadOf_findNodeInTree (t : Task) (j : Int) (hb : BST t) :
    payloadOf (findNodeInTree t j) = (inorder t).find? (fun x => x.id = j) := by
  induction t with
  | null => rfl
  | node e el er ihl ihr =>
    obtain ⟨hl, hr, hbl, hbr⟩ := hb
    rw [inorder_node, List.find?_append]
    rcases lt_trichotomy j e.id with h | h | h
    · rw [findNodeInTree_node_lt _ _ _ _ h, ihl hbl]
      have hnone : (e :: inorder er).find? (fun x => decide (x.id = j)) = none := by
        rw [List.find?_eq_none]
        intro x hx
        simp only [decide_eq_true_eq]
        rcases List.mem_cons.1 hx with hx | hx
        · subst hx; omega
        · have := hr x hx
          omega
      rw [hnone, Option.or_none]
    · subst h
      have hnone : (inorder el).find? (fun x => decide (x.id = e.id)) = none := by
        rw [List.find?_eq_none]
        intro x hx
        simp only [decide_eq_true_eq]
        have := hl x hx
        omega
      rw [findNodeInTree_node_eq _ _ _ _ rfl, hnone, Option.none_or,
        List.find?_cons_of_pos _ (by simp)]
      rfl
    · have hnone : (inorder el).find? (fun x => decide (x.id = j)) = none := by
        rw [List.find?_eq_none]
        intro x hx
        simp only [decide_eq_true_eq]
        have := hl x hx
        omega
      rw [findNodeInTree_node_gt _ _ _ _ h, hnone, Option.none_or,
        List.find?_cons_of_neg _ (by simp; omega), ihr hbr]

/-- C19: on a tree with the node invariant, duplicates allowed, and an id
that occurs in it, the in-order sequence of tasks of
`removeTaskFromTree root id` is the in-order sequence of `root` without the
task returned by `findNodeInTree root id`, which is the first task with that
id in the sequence; every other task keeps its payload and place in the
order. -/
theorem removeTaskFromTree_removes_found (root : Task) (taskId : Int) (hb : BST root)
    (hmem : taskId ∈ inorderIds root) :
    ∃ d l r before after, findNodeInTree root taskId = .node d l r ∧ d.id = taskId ∧
      inorder root = before ++ d :: after ∧ (∀ x ∈ before, x.id ≠ taskId) ∧
      inorder (removeTaskFromTree root taskId) = before ++ after := by
  obtain ⟨x, hx, hxid⟩ := List.mem_map.1 hmem
  obtain ⟨d, l, r, hf⟩ := findNodeInTree_of_mem root taskId hb ⟨x, hx, hxid⟩
  have hp := payloadOf_findNodeInTree root taskId hb
  rw [hf] at hp
  obtain ⟨hd, before, after, hsplit, hbefore⟩ := List.find?_eq_some.1 hp.symm
  have hno : ∀ y ∈ before, ¬ (decide (y.id = taskId) = true) := by
    intro y hy
    simpa using hbefore y hy
  refine ⟨d, l, r, before, after, hf, of_decide_eq_true hd, hsplit, ?_, ?_⟩
  · intro y hy
    simpa using hno y hy
  · rw [inorder_removeTaskFromTree root hb, hsplit, List.eraseP_append_right _ hno]
    simp [List.eraseP_cons, of_decide_eq_true hd]

/-- C19 on ids 5, 3, 5, 8 (id 5 twice): removing 5 takes away the first task
with id 5, the one the lookup returns, and keeps the second. -/
theorem removeTaskFromTree_removes_found_witness :
    ∃ d l r before after,
      findNodeInTree
          (buildTree [⟨5, "a", 1, 1⟩, ⟨3, "b", 2, 1⟩, ⟨5, "c", 3, 0⟩, ⟨8, "d", 4, 0⟩]) 5
        = .node d l r ∧ d.id = 5 ∧
      inorder (buildTree [⟨5, "a", 1, 1⟩, ⟨3, "b", 2, 1⟩, ⟨5, "c", 3, 0⟩, ⟨8, "d", 4, 0⟩])
        = before ++ d :: after ∧ (∀ x ∈ before, x.id ≠ 5) ∧
      inorder (removeTaskFromTree
          (buildTree [⟨5, "a", 1, 1⟩, ⟨3, "b", 2, 1⟩, ⟨5, "c", 3, 0⟩, ⟨8, "d", 4, 0⟩]) 5)
        = before ++ after :=
  removeTaskFromTree_removes_found
    (buildTree [⟨5, "a", 1, 1⟩, ⟨3, "b", 2, 1⟩, ⟨5, "c", 3, 0⟩, ⟨8, "d", 4, 0⟩]) 5
    (by decide) (by decide)

theorem find?_eraseP_of_disjoint (p q : Payload → Bool) (l : List Payload)
    (h : ∀ x, q x = true → p x = false) : (l.eraseP q).find? p = l.find? p := by
  induction l with
  | nil => rfl
  | cons a l ih =>
    by_cases hq : q a = true
    · rw [List.eraseP_cons_of_pos hq, List.find?_cons_of_neg _ (by simp [h a hq])]
    · rw [List.eraseP_cons_of_neg hq]
      by_cases hp : p a = true
      · rw [List.find?_cons_of_pos _ hp, List.find?_cons_of_pos _ hp]
      · rw [List.find?_cons_of_neg _ hp, List.find?_cons_of_neg _ hp, ih]

theorem payloadOf_eq_none (t : Task) : payloadOf t = none ↔ t = .null := by
  cases t <;> simp [payloadOf]

/-- C20: on a tree with the node invariant and for ids `j ≠ id`, the lookup of
`j` after `removeTaskFromTree root id` is present exactly when it was present
before, and then carries the same payload (id, description, timeLimit,
status). -/
theorem findNodeInTree_other_after_remove (root : Task) (taskId j : Int)
    (hb : BST root) (hne : j ≠ taskId) :
    payloadOf (findNodeInTree (removeTaskFromTree root taskId) j)
      = payloadOf (findNodeInTree root j) ∧
    (findNodeInTree (removeTaskFromTree root taskId) j = .null ↔
      findNodeInTree root j = .null) := by
  have h : payloadOf (findNodeInTree (removeTaskFromTree root taskId) j)
      = payloadOf (findNodeInTree root j) := by
    rw [payloadOf_findNodeInTree _ j (BST_removeTaskFromTree root taskId hb),
      payloadOf_findNodeInTree _ j hb, inorder_removeTaskFromTree root hb]
    apply find?_eraseP_of_disjoint
    intro x hx
    have hx2 : x.id = taskId := of_decide_eq_true hx
    simp only [decide_eq_false_iff_not]
    omega
  refine ⟨h, ?_⟩
  rw [← payloadOf_eq_none, ← payloadOf_eq_none, h]

/-- C20 on ids 5, 3, 5, 8: after removing 5 the lookup of 8 still returns the
task with id 8 and the lookup of 4 is still absent. -/
theorem findNodeInTree_other_after_remove_witness :
    payloadOf (findNodeInTree (removeTaskFromTree
        (buildTree [⟨5, "a", 1, 1⟩, ⟨3, "b", 2, 1⟩, ⟨5, "c", 3, 0⟩, ⟨8, "d", 4, 0⟩]) 5) 8)
      = some ⟨8, "d", 4, 0⟩ ∧
    (findNodeInTree (removeTaskFromTree
        (buildTree [⟨5, "a", 1, 1⟩, ⟨3, "b", 2, 1⟩, ⟨5, "c", 3, 0⟩, ⟨8, "d", 4, 0⟩]) 5) 4
      = .null ↔
     findNodeInTree
        (buildTree [⟨5, "a", 1, 1⟩, ⟨3, "b", 2, 1⟩, ⟨5, "c", 3, 0⟩, ⟨8, "d", 4, 0⟩]) 4
      = .null) :=
  ⟨(findNodeInTree_other_after_remove
      (buildTree [⟨5, "a", 1, 1⟩, ⟨3, "b", 2, 1⟩, ⟨5, "c", 3, 0⟩, ⟨8, "d", 4, 0⟩]) 5 8
      (by decide) (by decide)).1,
   (findNodeInTree_other_after_remove
      (buildTree [⟨5, "a", 1, 1⟩, ⟨3, "b", 2, 1⟩, ⟨5, "c", 3, 0⟩, ⟨8, "d", 4, 0⟩]) 5 4
      (by decide) (by decide)).2⟩

end TaskList
